import Mathlib

/-!
Verification of the XTable Arduino library (src/src/XTable.h).

The file shallowly embeds the template class `XTable<X>` of XTable.h:
the in-memory working-set table (a singly linked chain of
`{item, enabled}` nodes built by `InitBuffer`, traversed by the CRUD
operations), and the EEPROM-backed wear-leveling store
(`InitStorage` / `CheckStorage` / `SaveStorage` / `LoadStorage`).

Modelling conventions, fixed throughout:
* The chain starting at `first_record` is a `List (X × Bool)` in chain
  order; `current_record` is an index into it (`none` models a NULL
  pointer).  The C++ code never reallocates the chain, so list indices
  are stable names for the nodes.
* The compilation target is the 8-bit Arduino (avr-gcc), where
  `unsigned int` is 16 bits wide: the member `counter` wraps at 2 ^ 16.
* Operations that dereference a possibly-NULL pointer return an
  `Option`: a `none` result models the undefined behaviour of the
  dereference (the C++ code faults there), while `some r` is the
  defined result `r`.
* The EEPROM (class XEEPROM, a separate library that is not part of
  this repository) is modelled from the spec's byte-store driver
  contract: `read`/`write` move single bytes (values 0..255, writes
  truncate mod 256), `Read`/`Write` move whole `XItem` records at a
  byte address, `Fill` fills a byte range.  Bytes and records are kept
  in two maps keyed by address; the byte written by `SaveStorage` at
  `top_parameter_ptr - 1` physically aliases the last byte (the
  `enabled` flag) of the preceding data record, which is invisible in
  the two-map model, and no modelled execution reads a record slot it
  has not itself written, so the aliasing is unobservable here.
-/

namespace XTable

/-- Wraparound modulus of the `unsigned int` member `counter` on the
8-bit AVR target (16-bit int): 2 ^ 16. -/
def UINT_MOD : Nat := 65536

/-- State of the in-memory working-set table of `XTable<X>`:
`nodes` is the chain hanging off `first_record` in chain order
(`[]` models `first_record == NULL`), `cursor` is the position of
`current_record` (`none` models NULL), `counter` is the member
`counter`. -/
structure Table (X : Type) where
  nodes : List (X × Bool)
  cursor : Option Nat
  counter : Nat
  deriving Repr, DecidableEq

variable {X : Type}

/-- State set up by the constructor `XTable()` together with `Init()`:
no chain (`first_record = NULL`), NULL cursor, zero counter. -/
def freshXTable : Table X := { nodes := [], cursor := none, counter := 0 }

/-- InitBuffer (XTable.h:343-372).  The method allocates `first_record`
and then one further node per iteration of its do-while loop; for
`max_items = cap` the loop body runs `max cap 1` times (a do-while runs
at least once), so the chain ends up with `1 + max cap 1` nodes and the
trailing node — whose `next` is set to NULL — acts as an end sentinel
that `Insert` never fills.  `current_record` is left on that last node.
`new Item<X>` default-initializes nothing, so the freshly allocated
nodes hold indeterminate payloads and flags: the model takes them from
the arbitrary function `garbage`. -/
def InitBuffer (cap : Nat) (garbage : Nat → X × Bool) : Table X :=
  { nodes := (List.range (1 + max cap 1)).map garbage
  , cursor := some (max cap 1)
  , counter := 0 }

/-- The scan loop of `Insert` (XTable.h:381-382):
`while (current_record->next && current_record->enabled) advance;`.
Returns the index at which the scan stops: the first node that either
has no successor (the last node) or is not enabled. -/
def insScan : List (X × Bool) → Nat
  | [] => 0
  | [_] => 0
  | p :: q :: rest => if p.2 then insScan (q :: rest) + 1 else 0

/-- Insert (XTable.h:374-394).  Rewinds the cursor to `first_record`,
scans for the first node without successor or without `enabled`; if the
stop node has no successor the insert fails (with the cursor left on
that last node), otherwise the node receives the item, is enabled, and
the counter is incremented.  With `first_record == NULL` (before
`InitBuffer`) the code falls through to
`current_record->enabled = true;` on a NULL pointer: `none`. -/
def Insert (t : Table X) (x : X) : Option (Bool × Table X) :=
  match t.nodes with
  | [] => none
  | _ :: _ =>
    let i := insScan t.nodes
    if i = t.nodes.length - 1 then
      some (false, { t with cursor := some i })
    else
      some (true, { t with nodes := t.nodes.set i (x, true)
                         , cursor := some i
                         , counter := (t.counter + 1) % UINT_MOD })

/-- Select (XTable.h:396-400).  Reads `current_record->enabled` with no
NULL check: a NULL (or dangling) cursor is a faulting dereference,
modelled as the outer `none`.  Otherwise returns the payload when the
node is enabled and the NULL pointer (inner `none`) when not. -/
def Select (t : Table X) : Option (Option X) :=
  match t.cursor with
  | none => none
  | some i =>
    match t.nodes.get? i with
    | none => none
    | some p => some (if p.2 then some p.1 else none)

/-- Write a new payload into the node at index `i`, keeping its flag:
`current_record->item = item;`. -/
def setItem : List (X × Bool) → Nat → X → List (X × Bool)
  | [], _, _ => []
  | p :: rest, 0, x => (x, p.2) :: rest
  | p :: rest, n + 1, x => p :: setItem rest n x

/-- Write a new flag into the node at index `i`, keeping its payload:
`current_record->enabled = b;`. -/
def setFlag : List (X × Bool) → Nat → Bool → List (X × Bool)
  | [], _, _ => []
  | p :: rest, 0, b => (p.1, b) :: rest
  | p :: rest, n + 1, b => p :: setFlag rest n b

/-- Update (XTable.h:402-408): overwrites the payload at the cursor
unconditionally (no `enabled` check); fails only on a NULL cursor. -/
def Update (t : Table X) (x : X) : Bool × Table X :=
  match t.cursor with
  | none => (false, t)
  | some i => (true, { t with nodes := setItem t.nodes i x })

/-- Delete (XTable.h:410-417): clears `enabled` at the cursor and
decrements the unsigned counter (`counter--`, wrapping at 2 ^ 16);
fails only on a NULL cursor — the node's current flag is not
inspected. -/
def Delete (t : Table X) : Bool × Table X :=
  match t.cursor with
  | none => (false, t)
  | some i => (true, { t with nodes := setFlag t.nodes i false
                            , counter := (t.counter + (UINT_MOD - 1)) % UINT_MOD })

/-- Clean (XTable.h:419-433): walks the whole chain clearing every
`enabled` flag, then `Init()` resets cursor and counter. -/
def Clean (t : Table X) : Table X :=
  { nodes := t.nodes.map (fun p => (p.1, false)), cursor := none, counter := 0 }

/-- Counter (XTable.h:455-458): returns the member `counter`. -/
def Counter (t : Table X) : Nat := t.counter

/-- The body of the skip-disabled walk shared by `Top` and `Next`,
running over the remaining chain suffix (structural recursion, so it
evaluates by reduction). -/
def feAux : List (X × Bool) → Nat → Option Nat
  | [], _ => none
  | p :: rest, k => if p.2 then some k else feAux rest (k + 1)

/-- The skip-disabled walk shared by `Top` and `Next`: starting at
index `k`, advance while the node exists and is not enabled; the result
is the first index `≥ k` holding an enabled node, `none` when the walk
runs off the chain (`current_record` becomes NULL). -/
def firstEnabledFrom (nodes : List (X × Bool)) (k : Nat) : Option Nat :=
  feAux (nodes.drop k) k

/-- Unfolding of the walk one node at a time: exactly the recursion of
the C++ `Next` skip loop. -/
theorem firstEnabledFrom_eq (nodes : List (X × Bool)) (k : Nat) :
    firstEnabledFrom nodes k =
      if h : k < nodes.length then
        if (nodes.get ⟨k, h⟩).2 then some k else firstEnabledFrom nodes (k + 1)
      else none := by
  rw [firstEnabledFrom]
  by_cases h : k < nodes.length
  · rw [dif_pos h, List.drop_eq_getElem_cons h]
    rfl
  · rw [dif_neg h, List.drop_eq_nil_of_le (by omega)]
    rfl

/-- Top (XTable.h:435-443): fails on a missing chain; otherwise moves
the cursor to `first_record` and, when that node is disabled, delegates
to `Next` — net effect: cursor on the first enabled node, success iff
one exists. -/
def Top (t : Table X) : Bool × Table X :=
  match t.nodes with
  | [] => (false, t)
  | _ :: _ =>
    let c := firstEnabledFrom t.nodes 0
    (c.isSome, { t with cursor := c })

/-- Next (XTable.h:445-453): fails (without moving) on a missing chain
or NULL cursor; otherwise advances the cursor one node and recursively
skips disabled nodes, returning whether the cursor is still on a
node. -/
def Next (t : Table X) : Bool × Table X :=
  match t.nodes, t.cursor with
  | [], _ => (false, t)
  | _ :: _, none => (false, t)
  | _ :: _, some i =>
    let c := firstEnabledFrom t.nodes (i + 1)
    (c.isSome, { t with cursor := c })

theorem firstEnabledFrom_some {nodes : List (X × Bool)} {k j : Nat}
    (h : firstEnabledFrom nodes k = some j) :
    k ≤ j ∧ j < nodes.length := by
  have main : ∀ m k, nodes.length - k ≤ m →
      firstEnabledFrom nodes k = some j → k ≤ j ∧ j < nodes.length := by
    intro m
    induction m with
    | zero =>
      intro k hm h
      rw [firstEnabledFrom_eq] at h
      split at h
      · omega
      · exact absurd h (by simp)
    | succ m ih =>
      intro k hm h
      rw [firstEnabledFrom_eq] at h
      split at h
      · split at h
        · cases h; omega
        · have := ih (k + 1) (by omega) h
          omega
      · exact absurd h (by simp)
  exact main (nodes.length - k) k le_rfl h

/-- Fueled form of the record walk below; each visit moves the index
strictly forward, so `nodes.length` fuel is always enough. -/
def visitFromFuel : Nat → List (X × Bool) → Nat → List (X × Bool)
  | 0, _, _ => []
  | fuel + 1, nodes, i =>
    match nodes.get? i with
    | none => []
    | some p =>
      p :: (match firstEnabledFrom nodes (i + 1) with
            | none => []
            | some j => visitFromFuel fuel nodes j)

/-- The records visited by the cursor walk from node index `i` onward:
the node at `i`, then the node found by the `Next()` skip-disabled
step, and so on.  This is the sequence of `{item, enabled}` records the
do-while loop of `SaveStorage` (XTable.h:585-593) copies out when
entered with the cursor on node `i`. -/
def visitFrom (nodes : List (X × Bool)) (i : Nat) : List (X × Bool) :=
  visitFromFuel nodes.length nodes i

theorem visitFromFuel_congr : ∀ (f1 f2 : Nat) (nodes : List (X × Bool))
    (i : Nat), nodes.length - i ≤ f1 → nodes.length - i ≤ f2 →
    visitFromFuel f1 nodes i = visitFromFuel f2 nodes i := by
  intro f1
  induction f1 with
  | zero =>
    intro f2 nodes i h1 h2
    have hg : nodes.get? i = none := List.get?_eq_none.mpr (by omega)
    cases f2 with
    | zero => rfl
    | succ f2 =>
      show visitFromFuel 0 nodes i = visitFromFuel (f2 + 1) nodes i
      rw [visitFromFuel, visitFromFuel, hg]
  | succ f1 ih =>
    intro f2 nodes i h1 h2
    cases f2 with
    | zero =>
      have hg : nodes.get? i = none := List.get?_eq_none.mpr (by omega)
      rw [visitFromFuel, visitFromFuel, hg]
    | succ f2 =>
      rw [visitFromFuel, visitFromFuel]
      rcases hg : nodes.get? i with _ | p
      · rfl
      · simp only
        obtain ⟨hi, -⟩ := List.get?_eq_some.mp hg
        congr 1
        rcases hfe : firstEnabledFrom nodes (i + 1) with _ | j
        · rfl
        · obtain ⟨hj1, hj2⟩ := firstEnabledFrom_some hfe
          exact ih f2 nodes j (by omega) (by omega)

/-- One-step unfolding of the record walk, exactly the do-while body. -/
theorem visitFrom_eq (nodes : List (X × Bool)) (i : Nat) :
    visitFrom nodes i =
      (match nodes.get? i with
       | none => []
       | some p =>
         p :: (match firstEnabledFrom nodes (i + 1) with
               | none => []
               | some j => visitFrom nodes j)) := by
  rcases hnl : nodes.length with _ | L
  · have hg : nodes.get? i = none := List.get?_eq_none.mpr (by omega)
    rw [visitFrom, hnl, hg]
    rfl
  · rw [visitFrom, hnl, visitFromFuel]
    rcases hg : nodes.get? i with _ | p
    · rfl
    · simp only
      congr 1
      rcases hfe : firstEnabledFrom nodes (i + 1) with _ | j
      · rfl
      · obtain ⟨hj1, hj2⟩ := firstEnabledFrom_some hfe
        exact visitFromFuel_congr L nodes.length nodes j (by omega) (by omega)

/-- The visit sequence starting from an optional cursor position
(no visits at all from a NULL cursor). -/
def visitRecs (nodes : List (X × Bool)) : Option Nat → List (X × Bool)
  | none => []
  | some i => visitFrom nodes i

/-- The full enumeration `if (Top()) do { visit } while (Next());` of a
table, as the list of visited records. -/
def enumRecs (t : Table X) : List (X × Bool) :=
  let r := Top t
  if r.1 then visitRecs r.2.nodes r.2.cursor else []

/-! ### The wear-leveling store

State of the `XTable<X>` object that concerns the EEPROM, bundled with
the EEPROM contents themselves.  Addresses are `Int` because the class
stores them in C `int` members and `eeprom_max_items = -1` is used as a
sentinel. -/

/-- Begin marker byte `BMK = 0x42` (XTable.h:53). -/
def BMK : Nat := 0x42

/-- End marker byte `EMK = 0x45` (XTable.h:54). -/
def EMK : Nat := 0x45

/-- Modelled from the spec: `E2END` is the top address of the device's
EEPROM, provided by the toolchain (avr-libc), not by this repository;
the value used here is the 1 KiB EEPROM of the reference Arduino Uno
target.  Only `InitStorage`'s bounds check reads it. -/
def E2END : Int := 1023

/-- Combined state: the working-set table plus the EEPROM-related
members of `XTable<X>` and the EEPROM contents.  `recSize` stands for
the compile-time constant `sizeof(XItem<X>)`.  `bytes` is the EEPROM
seen through the byte driver (`eeprom.read` / `eeprom.write` /
`eeprom.Fill`), `recs` the same EEPROM seen through the record driver
(`eeprom.Read` / `eeprom.Write`), keyed by the byte address of the
record; see the file header for the aliasing discussion. -/
structure Machine (X : Type) where
  tbl : Table X
  recSize : Nat
  hb : Int
  pb : Int
  maxI : Int
  topS : Int
  topP : Int
  bytes : Int → Nat
  recs : Int → X × Bool

/-- Modelled from the spec: byte write of the byte-store driver
(`eeprom.write`), truncating to 8 bits. -/
def wByte (m : Machine X) (a : Int) (v : Nat) : Machine X :=
  { m with bytes := fun q => if q = a then v % 256 else m.bytes q }

/-- Modelled from the spec: record write of the byte-store driver
(`eeprom.Write`). -/
def wRec (m : Machine X) (a : Int) (r : X × Bool) : Machine X :=
  { m with recs := fun q => if q = a then r else m.recs q }

/-- Modelled from the spec: `eeprom.Fill(start, len, v)` writes the
byte `v` to `len` consecutive addresses from `start`.  (At the byte
level this also wipes the data records stored in the range; no modelled
execution reads a record it did not first write, so the record view is
left unchanged.) -/
def eFill (m : Machine X) (a len : Int) (v : Nat) : Machine X :=
  { m with bytes := fun q => if a ≤ q ∧ q < a + len then v % 256 else m.bytes q }

/-- IncCurrentLocation (XTable.h:531-534): advance a status location
circularly inside the status buffer `[hb+2, hb+2+maxI)`. -/
def IncCurrentLocation (m : Machine X) (cl : Int) : Int :=
  if cl + 1 - 2 < m.hb + m.maxI then cl + 1 else m.hb + 2

/-- GetLocationFromStatus (XTable.h:536-539): byte address of the data
record positionally paired with a status location. -/
def GetLocationFromStatus (m : Machine X) (sp : Int) : Int :=
  (sp - m.hb - 2) * (m.recSize : Int) + m.pb

/-- The while loop of `GetTopLocation` (XTable.h:550-555).  The loop
condition is `eeprom.read(next) == eeprom.read(current) + 1` — both
sides are promoted to C `int`, so there is no 8-bit wraparound in the
comparison.  Each iteration makes the byte at the current location grow
by exactly 1, and bytes are below 256, so the C loop runs at most 255
times; fuel 256 therefore reproduces it exactly. -/
def topWalk (m : Machine X) : Nat → Int → Int → Int
  | 0, cur, _ => cur
  | fuel + 1, cur, nxt =>
    if m.bytes nxt = m.bytes cur + 1 then
      topWalk m fuel nxt (IncCurrentLocation m nxt)
    else cur

/-- GetTopLocation (XTable.h:541-559): walk from the first status slot
(`hb+2`, first comparing against the plain successor address `hb+3`)
and set the top status / top parameter pointers from the stop
position. -/
def GetTopLocation (m : Machine X) : Machine X :=
  let ts := topWalk m 256 (m.hb + 2) (m.hb + 3)
  { m with topS := ts, topP := GetLocationFromStatus m ts }

/-- CheckStorage (XTable.h:517-529): validate the cached geometry and
the on-EEPROM markers and size byte; on success recover the top
pointers via `GetTopLocation`. -/
def CheckStorage (m : Machine X) : Bool × Machine X :=
  if m.maxI ≤ 0 ∨ 255 < m.maxI ∨ m.hb < 0 then (false, m)
  else if m.bytes m.hb = BMK ∧ m.bytes (m.hb + m.maxI + 2) = EMK ∧
          (m.bytes (m.hb + 1) : Int) = m.maxI then
    (true, GetTopLocation m)
  else (false, m)

/-- NextFreeAddressStorage (XTable.h:510-514). -/
def NextFreeAddressStorage (m : Machine X) : Int :=
  if m.maxI < 0 then -1
  else m.maxI * (m.recSize : Int) + m.maxI + 4 + m.hb

/-- GetTopAddressStorage (XTable.h:504-507). -/
def GetTopAddressStorage (m : Machine X) : Int := m.topP

/-- InitStorage (XTable.h:472-501): validate the parameters, set the
geometry members, check the region fits below `E2END`, and only when
the markers and size byte do not already match reformat the region
(zero-fill, then write `BMK`, `EMK` and the size byte); always finish
through `CheckStorage`. -/
def InitStorage (m : Machine X) (start maxItems : Int) : Bool × Machine X :=
  let m0 := { m with maxI := -1 }
  if maxItems ≤ 0 ∨ 255 < maxItems ∨ start < 0 then (false, m0)
  else
    let m1 := { m0 with hb := start, maxI := maxItems
                      , pb := start + maxItems + 4 }
    if E2END < NextFreeAddressStorage m1 - 1 then (false, m1)
    else
      let m2 :=
        if m1.bytes start = BMK ∧ m1.bytes (start + maxItems + 2) = EMK ∧
           (m1.bytes (start + 1) : Int) = maxItems then m1
        else
          let ma := eFill m1 start (maxItems * (m1.recSize : Int) + maxItems + 4) 0
          let mb := wByte ma start BMK
          let mc := wByte mb (start + maxItems + 2) EMK
          wByte mc (start + 1) maxItems.toNat
      CheckStorage m2

/-- PutTopLocation (XTable.h:562-570): read the generation byte at the
current top, advance the top status pointer circularly, stamp the next
generation there (`current_value + 1`, truncated to a byte by the
driver), and recompute the top parameter pointer. -/
def PutTopLocation (m : Machine X) : Machine X :=
  let v := m.bytes m.topS
  let ts := IncCurrentLocation m m.topS
  let m1 := wByte { m with topS := ts } ts (v + 1)
  { m1 with topP := GetLocationFromStatus m1 ts }

/-- The do-while body of `SaveStorage` (XTable.h:585-593), applied to
the list of records the `Top()`/`Next()` traversal visits: write each
record at the data slot paired with the running status pointer, then
advance the status pointer circularly. -/
def SaveLoopWrite (m : Machine X) : Int → List (X × Bool) → Machine X
  | _, [] => m
  | sp, r :: rest =>
    SaveLoopWrite (wRec m (GetLocationFromStatus m sp) r)
      (IncCurrentLocation m sp) rest

/-- SaveStorage (XTable.h:572-603): check the storage, advance and
stamp the top slot, stream every enabled record out through the
`Top()`/`Next()` traversal, write the live counter into the byte just
below the top data slot, and report success only if a final
`CheckStorage` passes and the counter byte reads back equal to
`Counter()`. -/
def SaveStorage (m : Machine X) : Bool × Machine X :=
  match CheckStorage m with
  | (false, mc) => (false, mc)
  | (true, mc) =>
    let m1 := PutTopLocation mc
    let r := Top m1.tbl
    let recsL := if r.1 then visitRecs r.2.nodes r.2.cursor else []
    let t2 := if r.1 then { r.2 with cursor := none } else r.2
    let m2 := SaveLoopWrite { m1 with tbl := t2 } m1.topS recsL
    let m3 := wByte m2 (m2.topP - 1) m2.tbl.counter
    match CheckStorage m3 with
    | (cb, m4) =>
      (cb && decide (m4.bytes (m4.topP - 1) = Counter m4.tbl), m4)

/-- The while loop of `LoadStorage` (XTable.h:622-634): read `n` more
records from the running data slot, `Insert` each payload and then
force the freshly inserted node's flag to the stored one.  A failing
`Insert` aborts with `false`; an `Insert` on a table that was never
`InitBuffer`-ed faults (`none`). -/
def LoadLoop (m : Machine X) : Int → Nat → Option (Bool × Machine X)
  | _, 0 => some (true, m)
  | sp, n + 1 =>
    let r := m.recs (GetLocationFromStatus m sp)
    match Insert m.tbl r.1 with
    | none => none
    | some (false, t1) => some (false, { m with tbl := t1 })
    | some (true, t1) =>
      let t2 := match t1.cursor with
                | some i => { t1 with nodes := setFlag t1.nodes i r.2 }
                | none => t1
      LoadLoop { m with tbl := t2 } (IncCurrentLocation m sp) n

/-- LoadStorage (XTable.h:606-637): check the storage, `Clean` the
table, read the stored live count from the byte below the top data
slot, and re-insert that many records walking the circular buffer from
the top slot. -/
def LoadStorage (m : Machine X) : Option (Bool × Machine X) :=
  match CheckStorage m with
  | (false, mc) => some (false, mc)
  | (true, mc) =>
    let m1 := { mc with tbl := Clean mc.tbl }
    let count := m1.bytes (m1.topP - 1)
    LoadLoop m1 m1.topS count

/-! ### Sequences of CRUD operations on the working-set table -/

/-- One CRUD call on the working-set table. -/
inductive Op (X : Type) where
  | ins (x : X)
  | del
  | upd (x : X)
  deriving Repr, DecidableEq

/-- Result of one CRUD call (`none` = the call faults). -/
def stepRes (t : Table X) : Op X → Option (Bool × Table X)
  | .ins x => Insert t x
  | .del => some (Delete t)
  | .upd x => some (Update t x)

/-- The table after one CRUD call (a faulting call is modelled as
leaving the state; no theorem below ever crosses a faulting call). -/
def stepT (t : Table X) (op : Op X) : Table X :=
  match stepRes t op with
  | none => t
  | some r => r.2

/-- The table after a sequence of CRUD calls. -/
def runOps : Table X → List (Op X) → Table X
  | t, [] => t
  | t, op :: rest => runOps (stepT t op) rest

/-- Whether `current_record` is on an enabled node. -/
def cursorOnEnabled (t : Table X) : Bool :=
  match t.cursor with
  | some i =>
    match t.nodes.get? i with
    | some p => p.2
    | none => false
  | none => false

/-- A run in which every `Delete` is issued while the cursor rests on
an enabled node (the discipline under which `counter` counts the
enabled nodes). -/
def okRunB : Table X → List (Op X) → Bool
  | _, [] => true
  | t, op :: rest =>
    (match op with
     | .del => cursorOnEnabled t
     | _ => true) && okRunB (stepT t op) rest

/-- A run in which every call returns success. -/
def succRunB : Table X → List (Op X) → Bool
  | _, [] => true
  | t, op :: rest =>
    match stepRes t op with
    | some (true, t1) => succRunB t1 rest
    | _ => false

/-- Number of `Insert` calls in a sequence. -/
def countIns (ops : List (Op X)) : Nat :=
  ops.countP (fun op => match op with | .ins _ => true | _ => false)

/-- Number of `Delete` calls in a sequence. -/
def countDel (ops : List (Op X)) : Nat :=
  ops.countP (fun op => match op with | .del => true | _ => false)

/-! ### Basic structural lemmas -/

theorem length_setItem (l : List (X × Bool)) (i : Nat) (x : X) :
    (setItem l i x).length = l.length := by
  induction l generalizing i with
  | nil => simp [setItem]
  | cons p rest ih =>
    cases i with
    | zero => simp [setItem]
    | succ n => simp [setItem, ih]

theorem length_setFlag (l : List (X × Bool)) (i : Nat) (b : Bool) :
    (setFlag l i b).length = l.length := by
  induction l generalizing i with
  | nil => simp [setFlag]
  | cons p rest ih =>
    cases i with
    | zero => simp [setFlag]
    | succ n => simp [setFlag, ih]

theorem get?_setFlag (l : List (X × Bool)) (i j : Nat) (b : Bool) :
    (setFlag l i b).get? j =
      if j = i then (l.get? j).map (fun p => (p.1, b)) else l.get? j := by
  induction l generalizing i j with
  | nil => simp [setFlag]
  | cons p rest ih =>
    cases i with
    | zero =>
      cases j with
      | zero => simp [setFlag]
      | succ n => simp [setFlag]
    | succ n =>
      cases j with
      | zero => simp [setFlag]
      | succ k =>
        simp only [setFlag, List.get?_cons_succ]
        rw [ih]
        by_cases hk : k = n <;> simp [hk]

theorem get?_setItem (l : List (X × Bool)) (i j : Nat) (x : X) :
    (setItem l i x).get? j =
      if j = i then (l.get? j).map (fun p => (x, p.2)) else l.get? j := by
  induction l generalizing i j with
  | nil => simp [setItem]
  | cons p rest ih =>
    cases i with
    | zero =>
      cases j with
      | zero => simp [setItem]
      | succ n => simp [setItem]
    | succ n =>
      cases j with
      | zero => simp [setItem]
      | succ k =>
        simp only [setItem, List.get?_cons_succ]
        rw [ih]
        by_cases hk : k = n <;> simp [hk]

theorem length_insert {t : Table X} {x : X} {r : Bool × Table X}
    (h : Insert t x = some r) : r.2.nodes.length = t.nodes.length := by
  unfold Insert at h
  match ht : t.nodes, h with
  | [], h => simp [ht] at h
  | p :: rest, h =>
    simp only [ht] at h
    split at h <;> cases h <;> simp [ht]

theorem length_stepT (t : Table X) (op : Op X) :
    (stepT t op).nodes.length = t.nodes.length := by
  cases op with
  | ins x =>
    simp only [stepT, stepRes]
    rcases h : Insert t x with _ | r
    · simp [h]
    · simp only [h]
      exact length_insert h
  | del =>
    unfold stepT stepRes Delete
    cases t.cursor <;> simp [length_setFlag]
  | upd x =>
    unfold stepT stepRes Update
    cases t.cursor <;> simp [length_setItem]

theorem length_runOps (t : Table X) (ops : List (Op X)) :
    (runOps t ops).nodes.length = t.nodes.length := by
  induction ops generalizing t with
  | nil => rfl
  | cons op rest ih => rw [runOps, ih, length_stepT]

/-! ### Enumeration lemmas: the cursor walk visits the enabled nodes -/

theorem firstEnabledFrom_flag {nodes : List (X × Bool)} {k j : Nat}
    (h : firstEnabledFrom nodes k = some j) :
    ∃ p, nodes.get? j = some p ∧ p.2 = true := by
  have main : ∀ m k, nodes.length - k ≤ m →
      firstEnabledFrom nodes k = some j →
      ∃ p, nodes.get? j = some p ∧ p.2 = true := by
    intro m
    induction m with
    | zero =>
      intro k hm h
      rw [firstEnabledFrom_eq] at h
      split at h
      · omega
      · exact absurd h (by simp)
    | succ m ih =>
      intro k hm h
      rw [firstEnabledFrom_eq] at h
      split at h
      · split at h
        · rename_i hk hflag
          cases h
          exact ⟨nodes.get ⟨j, hk⟩, List.get?_eq_get hk, hflag⟩
        · exact ih (k + 1) (by omega) h
      · exact absurd h (by simp)
  exact main (nodes.length - k) k le_rfl h

theorem firstEnabledFrom_none {nodes : List (X × Bool)} {k : Nat}
    (h : firstEnabledFrom nodes k = none) :
    ∀ j, k ≤ j → ∀ p, nodes.get? j = some p → p.2 = false := by
  have main : ∀ m k, nodes.length - k ≤ m →
      firstEnabledFrom nodes k = none →
      ∀ j, k ≤ j → ∀ p, nodes.get? j = some p → p.2 = false := by
    intro m
    induction m with
    | zero =>
      intro k hm h j hkj p hp
      obtain ⟨hj, -⟩ := List.get?_eq_some.mp hp
      rw [firstEnabledFrom_eq] at h
      split at h
      · omega
      · rename_i hk
        omega
    | succ m ih =>
      intro k hm h j hkj p hp
      rw [firstEnabledFrom_eq] at h
      split at h
      · split at h
        · exact absurd h (by simp)
        · rename_i hk hflag
          rcases Nat.eq_or_lt_of_le hkj with heq | hlt
          · subst heq
            have hg : nodes.get? k = some (nodes.get ⟨k, hk⟩) := List.get?_eq_get hk
            rw [hg] at hp
            cases hp
            simpa using hflag
          · exact ih (k + 1) (by omega) h j hlt p hp
      · obtain ⟨hj, -⟩ := List.get?_eq_some.mp hp
        rename_i hk
        omega
  exact main (nodes.length - k) k le_rfl h

theorem visitRecs_firstEnabledFrom (nodes : List (X × Bool)) (k : Nat) :
    visitRecs nodes (firstEnabledFrom nodes k) =
      (nodes.drop k).filter (fun p => p.2) := by
  have main : ∀ m k, nodes.length - k ≤ m →
      visitRecs nodes (firstEnabledFrom nodes k) =
        (nodes.drop k).filter (fun p => p.2) := by
    intro m
    induction m with
    | zero =>
      intro k hm
      have hk : nodes.length ≤ k := by omega
      rw [firstEnabledFrom_eq]
      rw [dif_neg (by omega)]
      rw [List.drop_eq_nil_of_le hk]
      rfl
    | succ m ih =>
      intro k hm
      by_cases hk : k < nodes.length
      · rw [List.drop_eq_getElem_cons hk]
        rw [firstEnabledFrom_eq, dif_pos hk]
        by_cases hflag : (nodes.get ⟨k, hk⟩).2
        · rw [if_pos hflag]
          show visitFrom nodes k = _
          rw [visitFrom_eq]
          have hget : nodes.get? k = some (nodes.get ⟨k, hk⟩) := List.get?_eq_get hk
          split
          · rename_i hnone
            rw [hget] at hnone
            exact absurd hnone (by simp)
          · rename_i p hp
            rw [hget] at hp
            cases hp
            rw [List.filter_cons]
            have hgetElem : nodes[k] = nodes.get ⟨k, hk⟩ := rfl
            rw [hgetElem, hflag]
            simp only [ite_true]
            congr 1
            have hdrop := ih (k + 1) (by omega)
            split
            · rename_i hfe
              rw [hfe] at hdrop
              exact hdrop
            · rename_i j hfe
              rw [hfe] at hdrop
              exact hdrop
        · rw [if_neg hflag]
          rw [List.filter_cons]
          have hcond : ¬(nodes[k].2 = true) := by
            have hgetElem : nodes[k] = nodes.get ⟨k, hk⟩ := rfl
            rw [hgetElem]
            exact hflag
          rw [if_neg hcond]
          exact ih (k + 1) (by omega)
      · rw [firstEnabledFrom_eq, dif_neg hk]
        rw [List.drop_eq_nil_of_le (by omega)]
        rfl
  exact main (nodes.length - k) k le_rfl

/-- The records visited by the full `Top()` / `Next()` protocol are
exactly the enabled records of the chain, in chain order. -/
theorem enumRecs_eq_filter (t : Table X) :
    enumRecs t = t.nodes.filter (fun p => p.2) := by
  obtain ⟨nodes, cur, cnt⟩ := t
  have hv := visitRecs_firstEnabledFrom nodes 0
  rw [List.drop_zero] at hv
  cases nodes with
  | nil => rfl
  | cons q rest =>
    show (if (firstEnabledFrom (q :: rest) 0).isSome then
            visitRecs (q :: rest) (firstEnabledFrom (q :: rest) 0) else []) = _
    rcases hfe : firstEnabledFrom (q :: rest) 0 with _ | j
    · rw [hfe] at hv
      simp only [Option.isSome_none, Bool.false_eq_true, if_false]
      exact hv
    · rw [hfe] at hv
      simp only [Option.isSome_some, if_true]
      exact hv

/-! ### Counting enabled nodes -/

/-- Number of enabled nodes of a chain. -/
def liveCount : List (X × Bool) → Nat
  | [] => 0
  | p :: rest => liveCount rest + (if p.2 then 1 else 0)

theorem liveCount_eq_length_filter (l : List (X × Bool)) :
    liveCount l = (l.filter (fun p => p.2)).length := by
  induction l with
  | nil => rfl
  | cons p rest ih =>
    rw [liveCount, List.filter_cons, ih]
    by_cases hp : p.2 <;> simp [hp]

theorem liveCount_le_length (l : List (X × Bool)) : liveCount l ≤ l.length := by
  induction l with
  | nil => exact le_rfl
  | cons p rest ih =>
    rw [liveCount]
    by_cases hp : p.2 <;> simp [hp] <;> omega

theorem liveCount_lt_length {l : List (X × Bool)} {i : Nat} {p : X × Bool}
    (hi : l.get? i = some p) (hp : p.2 = false) : liveCount l < l.length := by
  induction l generalizing i with
  | nil => exact absurd hi (by simp)
  | cons q rest ih =>
    cases i with
    | zero =>
      rw [List.get?_cons_zero] at hi
      cases hi
      rw [liveCount, hp]
      simp only [Bool.false_eq_true, if_false]
      have := liveCount_le_length rest
      simp only [List.length_cons]
      omega
    | succ n =>
      rw [List.get?_cons_succ] at hi
      have := ih hi
      rw [liveCount]
      by_cases hq : q.2 <;> simp [hq] <;> omega

theorem liveCount_setFlag {l : List (X × Bool)} {i : Nat} {p : X × Bool}
    (hi : l.get? i = some p) (b : Bool) :
    liveCount (setFlag l i b) + (if p.2 then 1 else 0) =
      liveCount l + (if b then 1 else 0) := by
  induction l generalizing i with
  | nil => exact absurd hi (by simp)
  | cons q rest ih =>
    cases i with
    | zero =>
      rw [List.get?_cons_zero] at hi
      cases hi
      have hred : setFlag (p :: rest) 0 b = (p.1, b) :: rest := rfl
      rw [hred, liveCount, liveCount]
      have hb : ((p.1, b).2) = b := rfl
      rw [hb]
      omega
    | succ n =>
      rw [List.get?_cons_succ] at hi
      have hred : setFlag (q :: rest) (n + 1) b = q :: setFlag rest n b := rfl
      rw [hred, liveCount, liveCount]
      have := ih hi
      omega

theorem liveCount_set_true {l : List (X × Bool)} {i : Nat} {p : X × Bool}
    (hi : l.get? i = some p) (x : X) :
    liveCount (l.set i (x, true)) + (if p.2 then 1 else 0) = liveCount l + 1 := by
  induction l generalizing i with
  | nil => exact absurd hi (by simp)
  | cons q rest ih =>
    cases i with
    | zero =>
      rw [List.get?_cons_zero] at hi
      cases hi
      have hred : (p :: rest).set 0 (x, true) = (x, true) :: rest := rfl
      rw [hred, liveCount, liveCount]
      have hb : ((x, true).2) = true := rfl
      rw [hb, if_pos rfl]
      omega
    | succ n =>
      rw [List.get?_cons_succ] at hi
      have hred : (q :: rest).set (n + 1) (x, true) = q :: rest.set n (x, true) := rfl
      rw [hred, liveCount, liveCount]
      have := ih hi
      omega

theorem liveCount_setItem (l : List (X × Bool)) (i : Nat) (x : X) :
    liveCount (setItem l i x) = liveCount l := by
  induction l generalizing i with
  | nil => rfl
  | cons q rest ih =>
    cases i with
    | zero => rfl
    | succ n =>
      show liveCount (setItem rest n x) + _ = _
      rw [liveCount, ih]

/-! ### The insert scan -/

theorem insScan_le (l : List (X × Bool)) : insScan l ≤ l.length - 1 := by
  induction l with
  | nil => exact le_rfl
  | cons p rest ih =>
    cases rest with
    | nil => exact le_rfl
    | cons q rest2 =>
      rw [insScan]
      by_cases hp : p.2
      · rw [if_pos hp]
        simp only [List.length_cons] at ih ⊢
        omega
      · rw [if_neg hp]
        omega

theorem insScan_flag_false {l : List (X × Bool)} (h : insScan l < l.length - 1) :
    ∃ p, l.get? (insScan l) = some p ∧ p.2 = false := by
  induction l with
  | nil => exact absurd h (by simp [insScan])
  | cons p rest ih =>
    cases rest with
    | nil => exact absurd h (by simp [insScan])
    | cons q rest2 =>
      rw [insScan] at h ⊢
      by_cases hp : p.2
      · rw [if_pos hp] at h ⊢
        simp only [List.length_cons] at h
        have hlt : insScan (q :: rest2) < (q :: rest2).length - 1 := by
          simp only [List.length_cons] at h ⊢
          omega
        obtain ⟨r, hr, hr2⟩ := ih hlt
        exact ⟨r, by rw [List.get?_cons_succ]; exact hr, hr2⟩
      · rw [if_neg hp] at h ⊢
        exact ⟨p, rfl, by simpa using hp⟩

theorem insScan_all_true {l : List (X × Bool)}
    (h : ∀ j p, j < l.length - 1 → l.get? j = some p → p.2 = true) :
    insScan l = l.length - 1 := by
  induction l with
  | nil => rfl
  | cons p rest ih =>
    cases rest with
    | nil => rfl
    | cons q rest2 =>
      rw [insScan]
      have hp : p.2 = true := h 0 p (by simp) rfl
      rw [if_pos hp]
      have := ih (fun j r hj hr => h (j + 1) r
        (by simp only [List.length_cons] at hj ⊢; omega)
        (by rw [List.get?_cons_succ]; exact hr))
      simp only [List.length_cons] at this ⊢
      omega

/-- The helper step for `insScan` over a `cons` with a nonempty tail. -/
theorem insScan_cons_of_ne_nil {l : List (X × Bool)} (r : X × Bool) (h : l ≠ []) :
    insScan (r :: l) = if r.2 then insScan l + 1 else 0 := by
  cases l with
  | nil => exact absurd rfl h
  | cons q rest => rfl

theorem insScan_append_false {L1 : List (X × Bool)} {p q : X × Bool}
    {rest : List (X × Bool)} (h1 : ∀ r ∈ L1, r.2 = true) (hp : p.2 = false) :
    insScan (L1 ++ p :: q :: rest) = L1.length := by
  induction L1 with
  | nil => simp [insScan, hp]
  | cons r L1 ih =>
    rw [List.cons_append, insScan_cons_of_ne_nil r (by simp)]
    rw [h1 r (List.mem_cons_self r L1)]
    rw [ih (fun s hs => h1 s (List.mem_cons_of_mem r hs))]
    simp

/-! ### The table invariant maintained by disciplined CRUD runs -/

/-- Invariant on a table built by `InitBuffer cap` and maintained by
every CRUD run in which `Delete` is only issued on an enabled cursor:
the chain keeps its `cap + 1` nodes, the trailing sentinel node stays
disabled, and the member `counter` counts the enabled nodes. -/
def goodTable (cap : Nat) (t : Table X) : Prop :=
  t.nodes.length = cap + 1 ∧
  (∀ p, t.nodes.get? cap = some p → p.2 = false) ∧
  t.counter = liveCount t.nodes

theorem goodTable_liveCount_le {cap : Nat} {t : Table X}
    (h : goodTable cap t) : liveCount t.nodes ≤ cap := by
  obtain ⟨hlen, hsent, -⟩ := h
  have hcap : cap < t.nodes.length := by omega
  have hget : t.nodes.get? cap = some (t.nodes.get ⟨cap, hcap⟩) :=
    List.get?_eq_get hcap
  have := liveCount_lt_length hget (hsent _ hget)
  omega

/-- `Insert` on a table with a nonempty chain, written out. -/
theorem insert_eq (nodes : List (X × Bool)) (cur : Option Nat) (cnt : Nat)
    (x : X) (hne : nodes ≠ []) :
    Insert ⟨nodes, cur, cnt⟩ x =
      (if insScan nodes = nodes.length - 1 then
        some (false, ⟨nodes, some (insScan nodes), cnt⟩)
      else
        some (true, ⟨nodes.set (insScan nodes) (x, true),
                     some (insScan nodes), (cnt + 1) % UINT_MOD⟩)) := by
  cases nodes with
  | nil => exact absurd rfl hne
  | cons q rest => rfl

theorem goodTable_stepT {cap : Nat} (hcap : cap ≤ 255) {t : Table X} (op : Op X)
    (h : goodTable cap t)
    (hdel : op = Op.del → cursorOnEnabled t = true) :
    goodTable cap (stepT t op) := by
  obtain ⟨nodes, cur, cnt⟩ := t
  obtain ⟨hlen, hsent, hcnt⟩ := h
  simp only at hlen hsent hcnt
  have hle := goodTable_liveCount_le (t := ⟨nodes, cur, cnt⟩) ⟨hlen, hsent, hcnt⟩
  simp only at hle
  cases op with
  | ins x =>
    have hne : nodes ≠ [] := by
      intro hnil
      rw [hnil] at hlen
      simp at hlen
    simp only [stepT, stepRes]
    rw [insert_eq nodes cur cnt x hne]
    by_cases hi : insScan nodes = nodes.length - 1
    · rw [if_pos hi]
      exact ⟨hlen, hsent, hcnt⟩
    · rw [if_neg hi]
      have hlt : insScan nodes < nodes.length - 1 := by
        have := insScan_le nodes
        omega
      obtain ⟨p, hp, hpf⟩ := insScan_flag_false hlt
      have hcount := liveCount_set_true hp x
      rw [hpf] at hcount
      simp only [Bool.false_eq_true, if_false] at hcount
      refine ⟨by simpa using hlen, ?_, ?_⟩
      · intro pq hq
        have hne2 : insScan nodes ≠ cap := by omega
        rw [List.get?_set_ne _ _ hne2] at hq
        exact hsent pq hq
      · show (cnt + 1) % UINT_MOD = _
        rw [hcnt]
        have : liveCount (nodes.set (insScan nodes) (x, true)) =
            liveCount nodes + 1 := by omega
        rw [this, UINT_MOD]
        omega
  | del =>
    have hcoe := hdel rfl
    simp only [cursorOnEnabled] at hcoe
    simp only [stepT, stepRes, Delete]
    cases cur with
    | none => simp at hcoe
    | some i =>
      simp only
      replace hcoe : (match nodes.get? i with
        | some p => p.2
        | none => false) = true := hcoe
      rcases hg : nodes.get? i with _ | p
      · rw [hg] at hcoe
        simp at hcoe
      · rw [hg] at hcoe
        simp only at hcoe
        have hcount := liveCount_setFlag hg false
        rw [hcoe] at hcount
        simp at hcount
        refine ⟨by simpa [length_setFlag] using hlen, ?_, ?_⟩
        · intro pq hq
          rw [get?_setFlag] at hq
          by_cases hic : cap = i
          · rw [if_pos hic] at hq
            rcases hg2 : nodes.get? cap with _ | r
            · rw [hg2] at hq
              exact absurd hq (by simp)
            · rw [hg2] at hq
              have hq2 : some (r.1, false) = some pq := hq
              cases hq2
              rfl
          · rw [if_neg hic] at hq
            exact hsent pq hq
        · show (cnt + (UINT_MOD - 1)) % UINT_MOD = _
          rw [hcnt]
          have h1 : liveCount nodes ≥ 1 := by omega
          have h2 : liveCount (setFlag nodes i false) = liveCount nodes - 1 := by
            omega
          rw [h2, UINT_MOD]
          omega
  | upd x =>
    simp only [stepT, stepRes, Update]
    cases cur with
    | none => exact ⟨hlen, hsent, hcnt⟩
    | some i =>
      simp only
      refine ⟨by simpa [length_setItem] using hlen, ?_, ?_⟩
      · intro pq hq
        rw [get?_setItem] at hq
        by_cases hic : cap = i
        · rw [if_pos hic] at hq
          rcases hg2 : nodes.get? cap with _ | r
          · rw [hg2] at hq
            exact absurd hq (by simp)
          · rw [hg2] at hq
            have hq2 : some (x, r.2) = some pq := hq
            cases hq2
            exact hsent r hg2
        · rw [if_neg hic] at hq
          exact hsent pq hq
      · show cnt = _
        rw [hcnt, liveCount_setItem]

theorem goodTable_runOps {cap : Nat} (hcap : cap ≤ 255) :
    ∀ (ops : List (Op X)) (t : Table X), goodTable cap t →
      okRunB t ops = true → goodTable cap (runOps t ops) := by
  intro ops
  induction ops with
  | nil => intro t h _; exact h
  | cons op rest ih =>
    intro t h hok
    rw [runOps]
    cases op with
    | ins x =>
      simp only [okRunB, Bool.and_eq_true] at hok
      exact ih _ (goodTable_stepT hcap _ h (by intro hh; injection hh)) hok.2
    | del =>
      simp only [okRunB, Bool.and_eq_true] at hok
      exact ih _ (goodTable_stepT hcap _ h (fun _ => hok.1)) hok.2
    | upd x =>
      simp only [okRunB, Bool.and_eq_true] at hok
      exact ih _ (goodTable_stepT hcap _ h (by intro hh; injection hh)) hok.2

theorem liveCount_eq_zero {l : List (X × Bool)}
    (h : ∀ p ∈ l, p.2 = false) : liveCount l = 0 := by
  induction l with
  | nil => rfl
  | cons p rest ih =>
    rw [liveCount, h p (List.mem_cons_self p rest)]
    simp only [Bool.false_eq_true, if_false]
    rw [ih (fun q hq => h q (List.mem_cons_of_mem p hq))]

theorem goodTable_InitBuffer {cap : Nat} (hcap : 1 ≤ cap) (g : Nat → X × Bool)
    (hg : ∀ n, (g n).2 = false) : goodTable cap (InitBuffer cap g) := by
  have hmax : max cap 1 = cap := by omega
  refine ⟨?_, ?_, ?_⟩
  · simp [InitBuffer, hmax]
    omega
  · intro p hp
    simp only [InitBuffer] at hp
    have := List.get?_mem hp
    obtain ⟨n, -, rfl⟩ := List.mem_map.mp this
    exact hg n
  · show 0 = _
    rw [liveCount_eq_zero]
    intro p hp
    simp only [InitBuffer] at hp
    obtain ⟨n, -, rfl⟩ := List.mem_map.mp hp
    exact hg n

theorem goodTable_Clean {cap : Nat} {t : Table X}
    (hlen : t.nodes.length = cap + 1) : goodTable cap (Clean t) := by
  refine ⟨by simpa [Clean] using hlen, ?_, ?_⟩
  · intro p hp
    simp only [Clean] at hp
    have := List.get?_mem hp
    obtain ⟨q, -, rfl⟩ := List.mem_map.mp this
    rfl
  · show 0 = _
    rw [liveCount_eq_zero]
    intro p hp
    simp only [Clean] at hp
    obtain ⟨q, -, rfl⟩ := List.mem_map.mp hp
    rfl

/-! ### The counter under successful runs -/

theorem insert_true_counter {t : Table X} {x : X} {t1 : Table X}
    (h : Insert t x = some (true, t1)) :
    t1.counter = (t.counter + 1) % UINT_MOD := by
  obtain ⟨nodes, cur, cnt⟩ := t
  cases nodes with
  | nil => simp [Insert] at h
  | cons q rest =>
    rw [insert_eq _ _ _ _ (by simp)] at h
    split at h
    · simp at h
    · simp only [Option.some_inj, Prod.mk.injEq, true_and] at h
      rw [← h]

theorem delete_true_counter {t : Table X} {t1 : Table X}
    (h : Delete t = (true, t1)) :
    t1.counter = (t.counter + (UINT_MOD - 1)) % UINT_MOD := by
  obtain ⟨nodes, cur, cnt⟩ := t
  cases cur with
  | none => simp [Delete] at h
  | some i =>
    simp only [Delete, Prod.mk.injEq, true_and] at h
    rw [← h]

theorem update_true_counter {t : Table X} {x : X} {t1 : Table X}
    (h : Update t x = (true, t1)) : t1.counter = t.counter := by
  obtain ⟨nodes, cur, cnt⟩ := t
  cases cur with
  | none => simp [Update] at h
  | some i =>
    simp only [Update, Prod.mk.injEq, true_and] at h
    rw [← h]

theorem counter_succRun : ∀ (ops : List (Op X)) (t : Table X),
    succRunB t ops = true → t.counter < UINT_MOD →
    (runOps t ops).counter =
      (t.counter + countIns ops + (UINT_MOD - 1) * countDel ops) % UINT_MOD := by
  intro ops
  induction ops with
  | nil =>
    intro t _ hc
    simp only [runOps, countIns, countDel, List.countP_nil, Nat.add_zero,
      Nat.mul_zero]
    exact (Nat.mod_eq_of_lt hc).symm
  | cons op rest ih =>
    intro t hs hc
    rw [runOps]
    have hMpos : 0 < UINT_MOD := by rw [UINT_MOD]; omega
    cases op with
    | ins x =>
      simp only [succRunB, stepRes] at hs
      rcases hI : Insert t x with _ | ⟨b, t1⟩
      · rw [hI] at hs
        simp at hs
      · rw [hI] at hs
        cases b with
        | false => simp at hs
        | true =>
          simp only at hs
          have hstep : stepT t (Op.ins x) = t1 := by
            simp [stepT, stepRes, hI]
          rw [hstep]
          have hcnt1 : t1.counter = (t.counter + 1) % UINT_MOD :=
            insert_true_counter hI
          have hlt1 : t1.counter < UINT_MOD := by
            rw [hcnt1]; exact Nat.mod_lt _ hMpos
          rw [ih t1 hs hlt1, hcnt1, Nat.add_assoc, Nat.mod_add_mod]
          have hci : countIns (Op.ins x :: rest) = countIns rest + 1 := by
            simp [countIns, List.countP_cons]
          have hcd : countDel (Op.ins x :: rest) = countDel rest := by
            simp [countDel, List.countP_cons]
          rw [hci, hcd]
          congr 1
          ring
    | del =>
      simp only [succRunB, stepRes] at hs
      rcases hD : Delete t with ⟨b, t1⟩
      rw [hD] at hs
      cases b with
      | false => simp at hs
      | true =>
        simp only at hs
        have hstep : stepT t Op.del = t1 := by
          simp [stepT, stepRes, hD]
        rw [hstep]
        have hcnt1 : t1.counter = (t.counter + (UINT_MOD - 1)) % UINT_MOD :=
          delete_true_counter hD
        have hlt1 : t1.counter < UINT_MOD := by
          rw [hcnt1]; exact Nat.mod_lt _ hMpos
        rw [ih t1 hs hlt1, hcnt1, Nat.add_assoc, Nat.mod_add_mod]
        have hci : countIns (Op.del :: rest) = countIns rest := by
          simp [countIns, List.countP_cons]
        have hcd : countDel (Op.del :: rest) = countDel rest + 1 := by
          simp [countDel, List.countP_cons]
        rw [hci, hcd]
        congr 1
        ring
    | upd x =>
      simp only [succRunB, stepRes] at hs
      rcases hU : Update t x with ⟨b, t1⟩
      rw [hU] at hs
      cases b with
      | false => simp at hs
      | true =>
        simp only at hs
        have hstep : stepT t (Op.upd x) = t1 := by
          simp [stepT, stepRes, hU]
        rw [hstep]
        have hcnt1 : t1.counter = t.counter := update_true_counter hU
        have hlt1 : t1.counter < UINT_MOD := by rw [hcnt1]; exact hc
        rw [ih t1 hs hlt1, hcnt1]
        have hci : countIns (Op.upd x :: rest) = countIns rest := by
          simp [countIns, List.countP_cons]
        have hcd : countDel (Op.upd x :: rest) = countDel rest := by
          simp [countDel, List.countP_cons]
        rw [hci, hcd]

/-! ### What the storage operations do to the table -/

theorem tbl_SaveLoopWrite : ∀ (L : List (X × Bool)) (m : Machine X) (sp : Int),
    (SaveLoopWrite m sp L).tbl = m.tbl := by
  intro L
  induction L with
  | nil => intro m sp; rfl
  | cons r rest ih =>
    intro m sp
    rw [SaveLoopWrite, ih]
    rfl

theorem tbl_CheckStorage (m : Machine X) : (CheckStorage m).2.tbl = m.tbl := by
  unfold CheckStorage
  split
  · rfl
  · split
    · rfl
    · rfl

theorem nodes_Top (t : Table X) : (Top t).2.nodes = t.nodes := by
  obtain ⟨nodes, cur, cnt⟩ := t
  cases nodes <;> rfl

theorem nodes_Next (t : Table X) : (Next t).2.nodes = t.nodes := by
  obtain ⟨nodes, cur, cnt⟩ := t
  cases nodes <;> cases cur <;> rfl

theorem tbl_wByte (m : Machine X) (a : Int) (v : Nat) :
    (wByte m a v).tbl = m.tbl := rfl

theorem tbl_wRec (m : Machine X) (a : Int) (r : X × Bool) :
    (wRec m a r).tbl = m.tbl := rfl

theorem nodes_SaveStorage (m : Machine X) :
    (SaveStorage m).2.tbl.nodes = m.tbl.nodes := by
  rw [SaveStorage]
  split
  · rename_i mc hC
    have hmc : mc.tbl = m.tbl := by rw [← tbl_CheckStorage m, hC]
    simp only
    rw [hmc]
  · rename_i mc hC
    have hmc : mc.tbl = m.tbl := by rw [← tbl_CheckStorage m, hC]
    simp only
    split
    · rw [tbl_CheckStorage, tbl_wByte, tbl_SaveLoopWrite]
      show (Top (PutTopLocation mc).tbl).2.nodes = _
      rw [nodes_Top]
      show mc.tbl.nodes = _
      rw [hmc]
    · rw [tbl_CheckStorage, tbl_wByte, tbl_SaveLoopWrite]
      show (Top (PutTopLocation mc).tbl).2.nodes = _
      rw [nodes_Top]
      show mc.tbl.nodes = _
      rw [hmc]

theorem length_LoadLoop : ∀ (n : Nat) (m : Machine X) (sp : Int)
    (r : Bool × Machine X), LoadLoop m sp n = some r →
    r.2.tbl.nodes.length = m.tbl.nodes.length := by
  intro n
  induction n with
  | zero =>
    intro m sp r h
    rw [LoadLoop] at h
    cases h
    rfl
  | succ k ih =>
    intro m sp r h
    rw [LoadLoop] at h
    rcases hI : Insert m.tbl (m.recs (GetLocationFromStatus m sp)).1
      with _ | ⟨b, t1⟩
    · rw [hI] at h
      exact absurd h (by simp)
    · rw [hI] at h
      cases b with
      | false =>
        simp only at h
        cases h
        show t1.nodes.length = _
        exact length_insert hI
      | true =>
        simp only at h
        have hlen1 : t1.nodes.length = m.tbl.nodes.length := length_insert hI
        rcases hcur : t1.cursor with _ | i
        · rw [hcur] at h
          have := ih _ _ _ h
          rw [this]
          exact hlen1
        · rw [hcur] at h
          have := ih _ _ _ h
          rw [this]
          show (setFlag t1.nodes i _).length = _
          rw [length_setFlag]
          exact hlen1

theorem length_LoadStorage (m : Machine X) (r : Bool × Machine X)
    (h : LoadStorage m = some r) :
    r.2.tbl.nodes.length = m.tbl.nodes.length := by
  rw [LoadStorage] at h
  rcases hC : CheckStorage m with ⟨b, mc⟩
  have hmc : mc.tbl = m.tbl := by rw [← tbl_CheckStorage m, hC]
  rw [hC] at h
  cases b with
  | false =>
    simp only at h
    cases h
    rw [hmc]
  | true =>
    simp only at h
    have := length_LoadLoop _ _ _ _ h
    rw [this]
    show (Clean mc.tbl).nodes.length = _
    rw [Clean]
    simp only [List.length_map]
    rw [hmc]

/-! ### CheckStorage elimination and introduction -/

theorem CheckStorage_true {m : Machine X} {mc : Machine X}
    (h : CheckStorage m = (true, mc)) :
    (0 < m.maxI ∧ m.maxI ≤ 255 ∧ 0 ≤ m.hb) ∧
    (m.bytes m.hb = BMK ∧ m.bytes (m.hb + m.maxI + 2) = EMK ∧
      (m.bytes (m.hb + 1) : Int) = m.maxI) ∧
    mc = GetTopLocation m := by
  rw [CheckStorage] at h
  split at h
  · exact absurd h (by simp)
  · split at h
    · rename_i hrange hmark
      injection h with h1 h2
      exact ⟨by omega, hmark, h2.symm⟩
    · exact absurd h (by simp)

theorem CheckStorage_eq_true {m : Machine X}
    (h1 : 0 < m.maxI) (h2 : m.maxI ≤ 255) (h3 : 0 ≤ m.hb)
    (hm : m.bytes m.hb = BMK ∧ m.bytes (m.hb + m.maxI + 2) = EMK ∧
      (m.bytes (m.hb + 1) : Int) = m.maxI) :
    CheckStorage m = (true, GetTopLocation m) := by
  rw [CheckStorage, if_neg (by omega), if_pos hm]

/-! ### Claims -/

/-- A formatted two-slot region whose status bytes are 255 and 0 —
the state straight after 255 was stamped into slot 0 and the write of
its one-byte successor wrapped to 0 in slot 1. -/
def walkBugMachine : Machine Nat :=
  { tbl := ⟨[], none, 0⟩
  , recSize := 2
  , hb := 0
  , pb := 6
  , maxI := 2
  , topS := 0
  , topP := 0
  , bytes := fun a =>
      if a = 0 then BMK
      else if a = 1 then 2
      else if a = 2 then 255
      else if a = 3 then 0
      else if a = 4 then EMK
      else 0
  , recs := fun _ => (0, false) }

/-- C2 (code bug): the recovery walk does not use one-byte wraparound.
On status bytes 255, 0 the one-byte successor relation holds
(`0 = (255 + 1) % 256`), so the claimed walk would advance to slot 1;
but the code compares with the C-promoted `read(next) == read(current) + 1`
(`0 = 256` is false), stops immediately, and leaves the top status
pointer on slot 0 (address `hb + 2 = 2`).  Meanwhile the generation
writes of `PutTopLocation` do wrap: stamping the successor of 255
stores the byte 0. -/
theorem C2_walk_without_wraparound :
    (GetTopLocation walkBugMachine).topS = 2 ∧
    walkBugMachine.bytes 3 = (walkBugMachine.bytes 2 + 1) % 256 ∧
    (PutTopLocation { walkBugMachine with topS := 2 }).bytes
      (PutTopLocation { walkBugMachine with topS := 2 }).topS = 0 :=
  ⟨rfl, rfl, rfl⟩

/-- An EEPROM never written before (erased bytes 0xFF) with no table
attached: the state in which `InitStorage` runs its format path. -/
def freshEEPROM : Machine Nat :=
  { tbl := ⟨[], none, 0⟩
  , recSize := 2
  , hb := 0
  , pb := 0
  , maxI := 0
  , topS := 0
  , topP := 0
  , bytes := fun _ => 255
  , recs := fun _ => (0, false) }

/-- C3, counterexample to the claim as stated: after a successful
`InitStorage(0, 1)` on a fresh region, the data records do not begin at
offset `capacity + 3 = 4` — `eeprom_parameter_begin` is
`start + max_items + 4 = 5`, and the data slot paired with the first
status slot sits at byte address 5. -/
theorem C3_counterexample :
    (InitStorage freshEEPROM 0 1).1 = true ∧
    (InitStorage freshEEPROM 0 1).2.pb = 5 ∧
    GetLocationFromStatus (InitStorage freshEEPROM 0 1).2 (0 + 2) = 5 ∧
    (5 : Int) ≠ 0 + 1 + 3 :=
  ⟨rfl, rfl, rfl, by decide⟩

set_option maxHeartbeats 1600000 in
/-- The state of `CheckStorage` right after the format block of
`InitStorage` (zero-fill of `L` bytes, then the `BMK`, `EMK` and size
writes) ran on an arbitrary machine whose geometry members are already
set.  Stated over a machine variable so layout facts can be read off
the write chain. -/
theorem CheckStorage_after_format (mm : Machine X) (start maxItems L : Int)
    (hhb : mm.hb = start) (hmi : mm.maxI = maxItems)
    (h1 : 0 < maxItems) (h2 : maxItems ≤ 255) (h3 : 0 ≤ start)
    (hL : maxItems + 4 ≤ L) :
    (CheckStorage (wByte (wByte (wByte (eFill mm start L 0) start BMK)
      (start + maxItems + 2) EMK) (start + 1) maxItems.toNat)).1 = true ∧
    (CheckStorage (wByte (wByte (wByte (eFill mm start L 0) start BMK)
      (start + maxItems + 2) EMK) (start + 1) maxItems.toNat)).2.bytes start
      = BMK ∧
    ((CheckStorage (wByte (wByte (wByte (eFill mm start L 0) start BMK)
      (start + maxItems + 2) EMK) (start + 1) maxItems.toNat)).2.bytes
      (start + 1) : Int) = maxItems ∧
    (∀ i : Int, 0 ≤ i → i < maxItems →
      (CheckStorage (wByte (wByte (wByte (eFill mm start L 0) start BMK)
        (start + maxItems + 2) EMK) (start + 1) maxItems.toNat)).2.bytes
        (start + 2 + i) = 0) ∧
    (CheckStorage (wByte (wByte (wByte (eFill mm start L 0) start BMK)
      (start + maxItems + 2) EMK) (start + 1) maxItems.toNat)).2.bytes
      (start + maxItems + 2) = EMK ∧
    (CheckStorage (wByte (wByte (wByte (eFill mm start L 0) start BMK)
      (start + maxItems + 2) EMK) (start + 1) maxItems.toNat)).2.pb = mm.pb ∧
    (∀ i : Int, GetLocationFromStatus
      (CheckStorage (wByte (wByte (wByte (eFill mm start L 0) start BMK)
        (start + maxItems + 2) EMK) (start + 1) maxItems.toNat)).2
      (start + 2 + i) = mm.pb + i * (mm.recSize : Int)) := by
  set M2 := wByte (wByte (wByte (eFill mm start L 0) start BMK)
    (start + maxItems + 2) EMK) (start + 1) maxItems.toNat with hM2
  have hB : ∀ q : Int, M2.bytes q =
      if q = start + 1 then maxItems.toNat % 256
      else if q = start + maxItems + 2 then EMK % 256
      else if q = start then BMK % 256
      else if start ≤ q ∧ q < start + L then 0 % 256
      else mm.bytes q := fun q => rfl
  have hfields : M2.hb = start ∧ M2.maxI = maxItems ∧ M2.pb = mm.pb ∧
      M2.recSize = mm.recSize := ⟨hhb, hmi, rfl, rfl⟩
  have htoNat : (maxItems.toNat : Int) = maxItems := Int.toNat_of_nonneg (by omega)
  have htoNatle : maxItems.toNat ≤ 255 := by omega
  have hbBMK : M2.bytes start = BMK := by
    rw [hB]
    rw [if_neg (by omega), if_neg (by omega), if_pos rfl]
    decide
  have hbEMK : M2.bytes (start + maxItems + 2) = EMK := by
    rw [hB]
    rw [if_neg (by omega), if_pos rfl]
    decide
  have hbSize : (M2.bytes (start + 1) : Int) = maxItems := by
    rw [hB, if_pos rfl, Nat.mod_eq_of_lt (by omega), htoNat]
  have hCk : CheckStorage M2 = (true, GetTopLocation M2) := by
    apply CheckStorage_eq_true
    · rw [hfields.2.1]; omega
    · rw [hfields.2.1]; omega
    · rw [hfields.1]; omega
    · refine ⟨?_, ?_, ?_⟩
      · rw [hfields.1]; exact hbBMK
      · rw [hfields.1, hfields.2.1]; exact hbEMK
      · rw [hfields.1, hfields.2.1]; exact hbSize
  rw [hCk]
  have hgb : (GetTopLocation M2).bytes = M2.bytes := rfl
  have hgpb : (GetTopLocation M2).pb = mm.pb := rfl
  have hghb : (GetTopLocation M2).hb = start := hhb
  have hgrs : (GetTopLocation M2).recSize = mm.recSize := rfl
  refine ⟨rfl, ?_, ?_, ?_, ?_, hgpb, ?_⟩
  · rw [hgb]; exact hbBMK
  · rw [hgb]; exact hbSize
  · intro i hi0 hilt
    rw [hgb, hB]
    rw [if_neg (by omega), if_neg (by omega), if_neg (by omega),
      if_pos (by constructor <;> omega)]
  · rw [hgb]; exact hbEMK
  · intro i
    rw [GetLocationFromStatus, hghb, hgpb, hgrs]
    ring

/-- C3 (amended): after a successful `InitStorage(start, capacity)` on
a fresh (unformatted) region the persisted layout is: begin marker
`0x42` at offset 0, the capacity byte at offset 1, the `capacity`
status bytes (zeroed) at offsets 2 through `capacity + 1`, the end
marker `0x45` at offset `capacity + 2` — but the `capacity` fixed-size
data records begin at offset `capacity + 4`, not `capacity + 3`:
`eeprom_parameter_begin = start + max_items + 4`, and the byte at
offset `capacity + 3` is the gap that holds the live-count byte when
the top slot is the first status slot. -/
theorem C3_fresh_format_layout (m : Machine X) (start maxItems : Int)
    (h1 : 0 < maxItems) (h2 : maxItems ≤ 255) (h3 : 0 ≤ start)
    (hbound : ¬(E2END < maxItems * (m.recSize : Int) + maxItems + 4 + start - 1))
    (hfresh : ¬(m.bytes start = BMK ∧ m.bytes (start + maxItems + 2) = EMK ∧
      (m.bytes (start + 1) : Int) = maxItems)) :
    (InitStorage m start maxItems).1 = true ∧
    (InitStorage m start maxItems).2.bytes start = BMK ∧
    ((InitStorage m start maxItems).2.bytes (start + 1) : Int) = maxItems ∧
    (∀ i : Int, 0 ≤ i → i < maxItems →
      (InitStorage m start maxItems).2.bytes (start + 2 + i) = 0) ∧
    (InitStorage m start maxItems).2.bytes (start + maxItems + 2) = EMK ∧
    (InitStorage m start maxItems).2.pb = start + maxItems + 4 ∧
    (∀ i : Int, GetLocationFromStatus (InitStorage m start maxItems).2
      (start + 2 + i) = start + maxItems + 4 + i * (m.recSize : Int)) := by
  have hrs : (0 : Int) ≤ (m.recSize : Int) := Int.natCast_nonneg _
  have hmul : 0 ≤ maxItems * (m.recSize : Int) :=
    mul_nonneg (by omega) hrs
  rw [InitStorage]
  rw [if_neg (by omega)]
  simp only [NextFreeAddressStorage]
  rw [if_neg (by omega)]
  rw [if_neg (by omega)]
  exact CheckStorage_after_format _ start maxItems _ rfl rfl h1 h2 h3 (by omega)

theorem C3_fresh_format_layout_witness :
    (InitStorage freshEEPROM 0 1).1 = true ∧
    (InitStorage freshEEPROM 0 1).2.bytes 0 = BMK ∧
    ((InitStorage freshEEPROM 0 1).2.bytes (0 + 1) : Int) = 1 ∧
    (∀ i : Int, 0 ≤ i → i < 1 →
      (InitStorage freshEEPROM 0 1).2.bytes (0 + 2 + i) = 0) ∧
    (InitStorage freshEEPROM 0 1).2.bytes (0 + 1 + 2) = EMK ∧
    (InitStorage freshEEPROM 0 1).2.pb = 0 + 1 + 4 ∧
    (∀ i : Int, GetLocationFromStatus (InitStorage freshEEPROM 0 1).2
      (0 + 2 + i) = 0 + 1 + 4 + i * ((freshEEPROM.recSize : Nat) : Int)) :=
  C3_fresh_format_layout freshEEPROM 0 1 (by decide) (by decide) (by decide)
    (by decide) (by decide)

/-- A `CheckStorage` call that reported success returned the
`GetTopLocation`-updated machine. -/
theorem CheckStorage_fst_true {m : Machine X}
    (h : (CheckStorage m).1 = true) :
    CheckStorage m = (true, GetTopLocation m) := by
  rw [CheckStorage] at h ⊢
  split at h
  · simp at h
  · rename_i hr
    split at h
    · rename_i hm
      rw [if_neg hr, if_pos hm]
    · simp at h

/-- `InitStorage` on a machine whose region already carries the
markers and size byte: the parameter checks pass, the reformat branch
is skipped (no byte and no record of the EEPROM is touched), and the
call succeeds. -/
theorem InitStorage_on_valid (M : Machine X) (start maxItems : Int)
    (h1 : 0 < maxItems) (h2 : maxItems ≤ 255) (h3 : 0 ≤ start)
    (hbound : ¬(E2END < maxItems * (M.recSize : Int) + maxItems + 4 + start - 1))
    (hmB : M.bytes start = BMK) (hmE : M.bytes (start + maxItems + 2) = EMK)
    (hmS : (M.bytes (start + 1) : Int) = maxItems) :
    (InitStorage M start maxItems).1 = true ∧
    (InitStorage M start maxItems).2.bytes = M.bytes ∧
    (InitStorage M start maxItems).2.recs = M.recs := by
  rw [InitStorage]
  rw [if_neg (by omega)]
  simp only [NextFreeAddressStorage]
  rw [if_neg (by omega)]
  rw [if_pos ⟨hmB, hmE, hmS⟩]
  rw [CheckStorage_eq_true (by show (0 : Int) < maxItems; omega)
    (by show maxItems ≤ 255; omega) (by show (0 : Int) ≤ start; omega)
    ⟨hmB, hmE, hmS⟩]
  exact ⟨rfl, rfl, rfl⟩

/-- What a successful `InitStorage` guarantees about its arguments and
its resulting machine: valid parameters, a region within bounds, an
unchanged record size, and the markers and size byte in place. -/
theorem InitStorage_true_elim (m : Machine X) (start maxItems : Int)
    (h : (InitStorage m start maxItems).1 = true) :
    (0 < maxItems ∧ maxItems ≤ 255 ∧ 0 ≤ start) ∧
    ¬(E2END < maxItems * (m.recSize : Int) + maxItems + 4 + start - 1) ∧
    (InitStorage m start maxItems).2.recSize = m.recSize ∧
    (InitStorage m start maxItems).2.bytes start = BMK ∧
    (InitStorage m start maxItems).2.bytes (start + maxItems + 2) = EMK ∧
    ((InitStorage m start maxItems).2.bytes (start + 1) : Int) = maxItems := by
  simp only [InitStorage] at h ⊢
  split at h
  · simp at h
  · rename_i hparams
    rw [if_neg hparams]
    split at h
    · simp at h
    · rename_i hbound0
      rw [if_neg hbound0]
      have hbound : ¬(E2END < maxItems * (m.recSize : Int) + maxItems + 4 +
          start - 1) := by
        simp only [NextFreeAddressStorage] at hbound0
        rw [if_neg (by omega)] at hbound0
        omega
      split at h
      · rename_i hmark
        rw [if_pos hmark]
        have hCk := CheckStorage_fst_true h
        rw [hCk]
        refine ⟨by omega, hbound, rfl, ?_, ?_, ?_⟩
        · exact hmark.1
        · exact hmark.2.1
        · exact hmark.2.2
      · rename_i hmark
        rw [if_neg hmark]
        have hCk := CheckStorage_fst_true h
        have hfacts := CheckStorage_true hCk
        rw [hCk]
        refine ⟨by omega, hbound, rfl, ?_, ?_, ?_⟩
        · exact hfacts.2.1.1
        · exact hfacts.2.1.2.1
        · exact hfacts.2.1.2.2

/-- C8: a second `InitStorage` with identical parameters on the
now-formatted region triggers no reformat — every byte (and every
data record) of the EEPROM is unchanged by the second call — and the
second call returns success just like the first (`InitStorage`'s
result is `CheckStorage`'s, so `CheckStorage` succeeds both times). -/
theorem C8_initstorage_idempotent (m : Machine X) (start maxItems : Int)
    (h : (InitStorage m start maxItems).1 = true) :
    (InitStorage (InitStorage m start maxItems).2 start maxItems).1 = true ∧
    (InitStorage (InitStorage m start maxItems).2 start maxItems).2.bytes =
      (InitStorage m start maxItems).2.bytes ∧
    (InitStorage (InitStorage m start maxItems).2 start maxItems).2.recs =
      (InitStorage m start maxItems).2.recs := by
  obtain ⟨⟨h1, h2, h3⟩, hbound, hrs, hB, hE, hS⟩ :=
    InitStorage_true_elim m start maxItems h
  exact InitStorage_on_valid (InitStorage m start maxItems).2 start maxItems
    h1 h2 h3 (by rw [hrs]; exact hbound) hB hE hS

theorem C8_initstorage_idempotent_witness :
    (InitStorage freshEEPROM 0 2).1 = true ∧
    (InitStorage (InitStorage freshEEPROM 0 2).2 0 2).1 = true ∧
    (InitStorage (InitStorage freshEEPROM 0 2).2 0 2).2.bytes =
      (InitStorage freshEEPROM 0 2).2.bytes ∧
    (InitStorage (InitStorage freshEEPROM 0 2).2 0 2).2.recs =
      (InitStorage freshEEPROM 0 2).2.recs :=
  ⟨rfl, C8_initstorage_idempotent freshEEPROM 0 2 rfl⟩

/-! ### The save/load round trip -/

/-- A sequence ending in one live item after a double Delete: the
second Delete hits the already-disabled node and drops the counter out
of sync with the enabled set. -/
def doubleDelOps : List (Op Nat) := [Op.ins 10, Op.ins 20, Op.del, Op.del]

/-- Fresh two-slot storage with a table holding one enabled item but a
zero counter, reached by `doubleDelOps`. -/
def doubleDelMachine : Machine Nat :=
  { (InitStorage freshEEPROM 0 2).2 with
    tbl := runOps (InitBuffer 2 (fun _ => ((0 : Nat), false))) doubleDelOps }

/-- C1, counterexample to the claim as stated: after the operation
sequence Insert 10; Insert 20; Delete; Delete (each call successful),
the live set is the single item 10, yet `SaveStorage()` (which
succeeds, the zero counter byte matching the zero member counter),
`Clean()`, `LoadStorage()` reconstructs an empty table: the stored
live count is 0, so nothing is loaded back. -/
theorem C1_counterexample :
    doubleDelMachine.tbl.nodes.filter (fun p => p.2) = [(10, true)] ∧
    (SaveStorage doubleDelMachine).1 = true ∧
    (LoadStorage { (SaveStorage doubleDelMachine).2 with
        tbl := Clean (SaveStorage doubleDelMachine).2.tbl }).map
      (fun r => (r.1, r.2.tbl.nodes.filter (fun p => p.2))) =
      some (true, []) ∧
    ([] : List (Nat × Bool)) ≠ [(10, true)] :=
  ⟨rfl, rfl, rfl, by decide⟩

theorem set_append_len {α : Type} (l1 : List α) (p : α) (l2 : List α)
    (a : α) : (l1 ++ p :: l2).set l1.length a = l1 ++ a :: l2 := by
  induction l1 with
  | nil => rfl
  | cons q l1 ih =>
    show q :: ((l1 ++ p :: l2).set l1.length a) = q :: (l1 ++ a :: l2)
    rw [ih]

theorem setFlag_append_len (l1 : List (X × Bool)) (p : X × Bool)
    (l2 : List (X × Bool)) (b : Bool) :
    setFlag (l1 ++ p :: l2) l1.length b = l1 ++ (p.1, b) :: l2 := by
  induction l1 with
  | nil => rfl
  | cons q l1 ih =>
    show q :: setFlag (l1 ++ p :: l2) l1.length b = q :: (l1 ++ (p.1, b) :: l2)
    rw [ih]

theorem slot_addr_inj {pbV : Int} {s : Nat} (hs : 1 ≤ s) {a b : Nat}
    (h : pbV + (a : Int) * (s : Int) = pbV + (b : Int) * (s : Int)) :
    a = b := by
  have h2 : (a : Int) * (s : Int) = (b : Int) * (s : Int) := by omega
  have hs0 : (s : Int) ≠ 0 := by
    have : (1 : Int) ≤ (s : Int) := by exact_mod_cast hs
    omega
  have h3 : (a : Int) = (b : Int) := mul_right_cancel₀ hs0 h2
  exact_mod_cast h3

theorem add_mod_ne (cap j n : Nat) (hcap : 0 < cap) (hj : j < cap)
    (h1 : 1 ≤ n) (hn : n < cap) : (j + n) % cap ≠ j := by
  by_cases h : j + n < cap
  · rw [Nat.mod_eq_of_lt h]
    omega
  · have h2 : j + n - cap < cap := by omega
    have heq : (j + n) % cap = j + n - cap := by
      rw [Nat.mod_eq_sub_mod (by omega), Nat.mod_eq_of_lt h2]
    rw [heq]
    omega

theorem Inc_status (start : Int) (cap : Nat) (m' : Machine X) (j : Nat)
    (hhb : m'.hb = start) (hmi : m'.maxI = (cap : Int)) (hj : j < cap) :
    IncCurrentLocation m' (start + 2 + (j : Int)) =
      start + 2 + (((j + 1) % cap : Nat) : Int) := by
  rw [IncCurrentLocation, hhb, hmi]
  by_cases hlt : j + 1 < cap
  · rw [if_pos (by push_cast; omega)]
    rw [Nat.mod_eq_of_lt hlt]
    push_cast
    ring
  · have hj1 : j + 1 = cap := by omega
    rw [if_neg (by push_cast; omega)]
    rw [hj1, Nat.mod_self]
    simp

theorem SaveLoopWrite_fields (L : List (X × Bool)) :
    ∀ (m' : Machine X) (sp : Int),
      (SaveLoopWrite m' sp L).hb = m'.hb ∧
      (SaveLoopWrite m' sp L).maxI = m'.maxI ∧
      (SaveLoopWrite m' sp L).pb = m'.pb ∧
      (SaveLoopWrite m' sp L).recSize = m'.recSize ∧
      (SaveLoopWrite m' sp L).bytes = m'.bytes ∧
      (SaveLoopWrite m' sp L).topS = m'.topS ∧
      (SaveLoopWrite m' sp L).topP = m'.topP := by
  induction L with
  | nil => intro m' sp; exact ⟨rfl, rfl, rfl, rfl, rfl, rfl, rfl⟩
  | cons r rest ih =>
    intro m' sp
    exact ih (wRec m' (GetLocationFromStatus m' sp) r)
      (IncCurrentLocation m' sp)

theorem SaveLoopWrite_recs (start pbV : Int) (cap s : Nat)
    (hcap : 0 < cap) (hs : 1 ≤ s) :
    ∀ (L : List (X × Bool)) (m' : Machine X) (j : Nat),
      m'.hb = start → m'.maxI = (cap : Int) → m'.pb = pbV →
      m'.recSize = s → j < cap → L.length ≤ cap →
      (∀ (n : Nat) (hn : n < L.length),
        (SaveLoopWrite m' (start + 2 + (j : Int)) L).recs
          (pbV + (((j + n) % cap : Nat) : Int) * (s : Int)) =
          L.get ⟨n, hn⟩) ∧
      (∀ a : Int, (∀ n : Nat, n < L.length →
          a ≠ pbV + (((j + n) % cap : Nat) : Int) * (s : Int)) →
        (SaveLoopWrite m' (start + 2 + (j : Int)) L).recs a = m'.recs a) := by
  intro L
  induction L with
  | nil =>
    intro m' j hhb hmi hpb hrs hj hlen
    constructor
    · intro n hn
      exact absurd hn (by simp)
    · intro a _
      rfl
  | cons r L' ih =>
    intro m' j hhb hmi hpb hrs hj hlen
    have hA : GetLocationFromStatus m' (start + 2 + (j : Int)) =
        pbV + (j : Int) * (s : Int) := by
      rw [GetLocationFromStatus, hhb, hpb, hrs]
      ring
    have hI : IncCurrentLocation m' (start + 2 + (j : Int)) =
        start + 2 + (((j + 1) % cap : Nat) : Int) :=
      Inc_status start cap m' j hhb hmi hj
    have hstep : SaveLoopWrite m' (start + 2 + (j : Int)) (r :: L') =
        SaveLoopWrite (wRec m' (pbV + (j : Int) * (s : Int)) r)
          (start + 2 + (((j + 1) % cap : Nat) : Int)) L' := by
      rw [SaveLoopWrite, hA, hI]
    have hj' : (j + 1) % cap < cap := Nat.mod_lt _ hcap
    have hlen' : L'.length ≤ cap := by
      simp only [List.length_cons] at hlen
      omega
    have ihm := ih (wRec m' (pbV + (j : Int) * (s : Int)) r) ((j + 1) % cap)
      hhb hmi hpb hrs hj' hlen'
    have hshift : ∀ n : Nat, ((j + 1) % cap + n) % cap = (j + (n + 1)) % cap := by
      intro n
      rw [Nat.mod_add_mod]
      congr 1
      omega
    have hne0 : ∀ n : Nat, n < L'.length →
        pbV + (j : Int) * (s : Int) ≠
          pbV + ((((j + 1) % cap + n) % cap : Nat) : Int) * (s : Int) := by
      intro n hn heq
      have := slot_addr_inj hs heq.symm
      rw [hshift n] at this
      have hmod : (j + (n + 1)) % cap ≠ j := by
        apply add_mod_ne cap j (n + 1) hcap hj (by omega)
        simp only [List.length_cons] at hlen
        omega
      exact hmod this
    constructor
    · intro n hn
      rw [hstep]
      cases n with
      | zero =>
        have hjeq : ((j + 0) % cap : Nat) = j := by
          rw [Nat.add_zero, Nat.mod_eq_of_lt hj]
        rw [hjeq]
        rw [ihm.2 (pbV + (j : Int) * (s : Int)) hne0]
        show (if pbV + (j : Int) * (s : Int) = pbV + (j : Int) * (s : Int)
          then r else m'.recs (pbV + (j : Int) * (s : Int))) = r
        rw [if_pos rfl]
      | succ n =>
        have hn' : n < L'.length := by
          simp only [List.length_cons] at hn
          omega
        have := ihm.1 n hn'
        rw [hshift n] at this
        exact this
    · intro a ha
      rw [hstep]
      rw [ihm.2 a (fun n hn => by
        rw [hshift n]
        exact ha (n + 1) (by simp only [List.length_cons]; omega))]
      have haj : a ≠ pbV + (j : Int) * (s : Int) := by
        have := ha 0 (by simp)
        rw [Nat.add_zero, Nat.mod_eq_of_lt hj] at this
        exact this
      show (if a = pbV + (j : Int) * (s : Int) then r else m'.recs a) = m'.recs a
      rw [if_neg haj]


/-- The table `SaveStorage` leaves behind after its `Top()` call and the
`current_record = NULL` assignment of the final do-while pass: the same
chain and counter with the cursor knocked out — whether or not `Top()`
found an enabled record. -/
theorem Top_then_none (t : Table X) (hne : t.nodes ≠ []) :
    (if (Top t).1 then { (Top t).2 with cursor := none } else (Top t).2) =
      (⟨t.nodes, none, t.counter⟩ : Table X) := by
  obtain ⟨nodes, cur, cnt⟩ := t
  cases nodes with
  | nil => exact absurd rfl hne
  | cons a rest =>
    show (if (firstEnabledFrom (a :: rest) 0).isSome
          then { (⟨a :: rest, firstEnabledFrom (a :: rest) 0, cnt⟩ : Table X)
                 with cursor := none }
          else (⟨a :: rest, firstEnabledFrom (a :: rest) 0, cnt⟩ : Table X)) = _
    rcases firstEnabledFrom (a :: rest) 0 with _ | j
    · rfl
    · rfl

/-- The recovery walk on a freshly formatted region (all status bytes
zero): the very first comparison fails (the next byte is another zero
status byte, or the end marker when the capacity is 1), so the walk
stays on the first status slot. -/
theorem walk_fresh (m' : Machine X) (start : Int) (cap : Nat)
    (hcap1 : 1 ≤ cap) (hcap2 : cap ≤ 255)
    (hZ : ∀ i : Int, 0 ≤ i → i < (cap : Int) → m'.bytes (start + 2 + i) = 0)
    (hE : m'.bytes (start + (cap : Int) + 2) = EMK) :
    topWalk m' 256 (start + 2) (start + 3) = start + 2 := by
  have h2 : m'.bytes (start + 2) = 0 := by
    have h := hZ 0 le_rfl (by omega)
    rw [show start + 2 + (0 : Int) = start + 2 by ring] at h
    exact h
  have hcond : ¬ (m'.bytes (start + 3) = m'.bytes (start + 2) + 1) := by
    rw [h2]
    rcases Nat.lt_or_ge cap 2 with hc | hc
    · have hcape : ((cap : Nat) : Int) = 1 := by omega
      have h3 : m'.bytes (start + 3) = EMK := by
        have h := hE
        rw [hcape] at h
        rw [show start + 1 + 2 = start + 3 by ring] at h
        exact h
      rw [h3]
      decide
    · have h3 : m'.bytes (start + 3) = 0 := by
        have h := hZ 1 (by omega) (by omega)
        rw [show start + 2 + (1 : Int) = start + 3 by ring] at h
        exact h
      rw [h3]
      omega
  rw [show (256 : Nat) = 255 + 1 from rfl, topWalk, if_neg hcond]

/-- The recovery walk right after `PutTopLocation` stamped generation 1
into status slot `t1 = 1 % capacity` of a freshly formatted region: the
walk advances exactly onto the stamped slot and stops there. -/
theorem walk_stamped (m' : Machine X) (start : Int) (cap t1 : Nat)
    (hcap1 : 1 ≤ cap) (hcap2 : cap ≤ 255) (ht1 : t1 = 1 % cap)
    (hhb : m'.hb = start) (hmi : m'.maxI = (cap : Int))
    (hone : m'.bytes (start + 2 + (t1 : Int)) = 1)
    (hZ : ∀ i : Int, 0 ≤ i → i < (cap : Int) → i ≠ (t1 : Int) →
      m'.bytes (start + 2 + i) = 0)
    (hE : m'.bytes (start + (cap : Int) + 2) = EMK) :
    topWalk m' 256 (start + 2) (start + 3) = start + 2 + (t1 : Int) := by
  rcases Nat.lt_or_ge cap 2 with hc | hc
  · have hcape : cap = 1 := by omega
    subst hcape
    have ht1v : t1 = 0 := by rw [ht1]
    subst ht1v
    have h2 : m'.bytes (start + 2) = 1 := by
      have h := hone
      rw [show start + 2 + ((0 : Nat) : Int) = start + 2 by push_cast; ring] at h
      exact h
    have h3 : m'.bytes (start + 3) = EMK := by
      have h := hE
      rw [show start + ((1 : Nat) : Int) + 2 = start + 3 by push_cast; ring] at h
      exact h
    have hcond : ¬ (m'.bytes (start + 3) = m'.bytes (start + 2) + 1) := by
      rw [h2, h3]
      decide
    rw [show (256 : Nat) = 255 + 1 from rfl, topWalk, if_neg hcond]
    push_cast
    ring
  · have ht1v : t1 = 1 := by rw [ht1]; exact Nat.mod_eq_of_lt hc
    subst ht1v
    have h20 : m'.bytes (start + 2) = 0 := by
      have h := hZ 0 le_rfl (by omega) (by omega)
      rw [show start + 2 + (0 : Int) = start + 2 by ring] at h
      exact h
    have h31 : m'.bytes (start + 3) = 1 := by
      have h := hone
      rw [show start + 2 + ((1 : Nat) : Int) = start + 3 by push_cast; ring] at h
      exact h
    have hcond1 : m'.bytes (start + 3) = m'.bytes (start + 2) + 1 := by
      rw [h20, h31]
    rw [show (256 : Nat) = 255 + 1 from rfl, topWalk, if_pos hcond1]
    rcases Nat.lt_or_ge cap 3 with hc2 | hc2
    · have hcape : cap = 2 := by omega
      have hInc : IncCurrentLocation m' (start + 3) = start + 2 := by
        rw [IncCurrentLocation, hhb, hmi, hcape]
        rw [if_neg (by push_cast; omega)]
      rw [hInc]
      have hcond2 : ¬ (m'.bytes (start + 2) = m'.bytes (start + 3) + 1) := by
        rw [h20, h31]
        decide
      rw [show (255 : Nat) = 254 + 1 from rfl, topWalk, if_neg hcond2]
      push_cast
      ring
    · have hInc : IncCurrentLocation m' (start + 3) = start + 4 := by
        rw [IncCurrentLocation, hhb, hmi]
        rw [if_pos (by push_cast; omega)]
        ring
      rw [hInc]
      have h40 : m'.bytes (start + 4) = 0 := by
        have h := hZ 2 (by omega) (by omega) (by omega)
        rw [show start + 2 + (2 : Int) = start + 4 by ring] at h
        exact h
      have hcond2 : ¬ (m'.bytes (start + 4) = m'.bytes (start + 3) + 1) := by
        rw [h40, h31]
        decide
      rw [show (255 : Nat) = 254 + 1 from rfl, topWalk, if_neg hcond2]
      push_cast
      ring

/-- The while loop of `LoadStorage`, run on a cleaned table holding
`done ++ rest` (the already reloaded records followed by all-disabled
slots): reading `toRead.length` records from the circular data slots
starting at status index `j` inserts them in order, giving the chain
`done ++ toRead ++ rest.drop toRead.length`. -/
theorem LoadLoop_builds (start pbV : Int) (cap s : Nat)
    (hcap : 0 < cap) (hs : 1 ≤ s) :
    ∀ (toRead : List (X × Bool)), ∀ (done rest : List (X × Bool))
      (mL : Machine X) (j : Nat),
      mL.hb = start → mL.maxI = (cap : Int) → mL.pb = pbV →
      mL.recSize = s → j < cap →
      mL.tbl.nodes = done ++ rest →
      (∀ p ∈ toRead, p.2 = true) →
      (∀ p ∈ done, p.2 = true) →
      (∀ p ∈ rest, p.2 = false) →
      done.length + toRead.length ≤ cap →
      done.length + rest.length = cap + 1 →
      (∀ (n : Nat) (hn : n < toRead.length),
        mL.recs (pbV + (((j + n) % cap : Nat) : Int) * (s : Int)) =
          toRead.get ⟨n, hn⟩) →
      ∃ mfin : Machine X,
        LoadLoop mL (start + 2 + (j : Int)) toRead.length = some (true, mfin) ∧
        mfin.tbl.nodes = done ++ toRead ++ rest.drop toRead.length := by
  intro toRead
  induction toRead with
  | nil =>
    intro done rest mL j hhb hmi hpb hrs hj hnodes hread hdone hrest hlen1 hlen2 hrecs
    refine ⟨mL, rfl, ?_⟩
    simp [hnodes]
  | cons r toRead' ih =>
    intro done rest mL j hhb hmi hpb hrs hj hnodes hread hdone hrest hlen1 hlen2 hrecs
    have hrlen : 2 ≤ rest.length := by
      simp only [List.length_cons] at hlen1
      omega
    obtain ⟨a, rest1, rfl⟩ : ∃ a rest1, rest = a :: rest1 := by
      cases rest with
      | nil => simp at hrlen
      | cons a rest1 => exact ⟨a, rest1, rfl⟩
    obtain ⟨b, rest2, rfl⟩ : ∃ b rest2, rest1 = b :: rest2 := by
      cases rest1 with
      | nil =>
        simp only [List.length_cons, List.length_nil] at hrlen
        omega
      | cons b rest2 => exact ⟨b, rest2, rfl⟩
    have hA : GetLocationFromStatus mL (start + 2 + (j : Int)) =
        pbV + (j : Int) * (s : Int) := by
      rw [GetLocationFromStatus, hhb, hpb, hrs]
      ring
    have hr0 : mL.recs (pbV + (j : Int) * (s : Int)) = r := by
      have h0 := hrecs 0 (by simp)
      rw [Nat.add_zero, Nat.mod_eq_of_lt hj] at h0
      exact h0
    have hscan : insScan mL.tbl.nodes = done.length := by
      rw [hnodes]
      exact insScan_append_false hdone (hrest a (List.mem_cons_self a (b :: rest2)))
    have hlnodes : mL.tbl.nodes.length = cap + 1 := by
      rw [hnodes]
      simp only [List.length_append, List.length_cons] at hlen2 ⊢
      omega
    have hdlt : done.length < cap := by
      simp only [List.length_cons] at hlen1
      omega
    have hne : mL.tbl.nodes ≠ [] := by
      rw [hnodes]
      simp
    have hIns0 : Insert mL.tbl r.1 =
        (if insScan mL.tbl.nodes = mL.tbl.nodes.length - 1 then
          some (false, ⟨mL.tbl.nodes, some (insScan mL.tbl.nodes), mL.tbl.counter⟩)
        else
          some (true, ⟨mL.tbl.nodes.set (insScan mL.tbl.nodes) (r.1, true),
            some (insScan mL.tbl.nodes),
            (mL.tbl.counter + 1) % UINT_MOD⟩)) :=
      insert_eq mL.tbl.nodes mL.tbl.cursor mL.tbl.counter r.1 hne
    rw [hscan, hlnodes, if_neg (by omega)] at hIns0
    have hsetn : mL.tbl.nodes.set done.length (r.1, true) =
        done ++ (r.1, true) :: b :: rest2 := by
      rw [hnodes]
      exact set_append_len done a (b :: rest2) (r.1, true)
    have hsetf : setFlag (done ++ (r.1, true) :: b :: rest2) done.length r.2 =
        done ++ r :: b :: rest2 := by
      have h := setFlag_append_len done ((r.1, true)) (b :: rest2) r.2
      simpa using h
    have hInc : IncCurrentLocation mL (start + 2 + (j : Int)) =
        start + 2 + (((j + 1) % cap : Nat) : Int) :=
      Inc_status start cap mL j hhb hmi hj
    have hstep : LoadLoop mL (start + 2 + (j : Int)) (r :: toRead').length =
        LoadLoop { mL with tbl := ⟨done ++ r :: b :: rest2, some done.length,
            (mL.tbl.counter + 1) % UINT_MOD⟩ }
          (start + 2 + (((j + 1) % cap : Nat) : Int)) toRead'.length := by
      show LoadLoop mL (start + 2 + (j : Int)) (toRead'.length + 1) = _
      simp only [LoadLoop, hA, hr0, hIns0, hInc, hsetn, hsetf]
    obtain ⟨mfin, hLL, hN⟩ := ih (done ++ [r]) (b :: rest2)
        ({ mL with tbl := ⟨done ++ r :: b :: rest2, some done.length,
            (mL.tbl.counter + 1) % UINT_MOD⟩ }) ((j + 1) % cap)
        hhb hmi hpb hrs (Nat.mod_lt _ hcap)
        (by
          show done ++ r :: b :: rest2 = (done ++ [r]) ++ b :: rest2
          exact List.append_cons done r (b :: rest2))
        (fun p hp => hread p (List.mem_cons_of_mem r hp))
        (by
          intro p hp
          rcases List.mem_append.mp hp with h1 | h1
          · exact hdone p h1
          · have hpr : p = r := by simpa using h1
            rw [hpr]
            exact hread r (List.mem_cons_self r toRead'))
        (fun p hp => hrest p (List.mem_cons_of_mem a hp))
        (by
          simp only [List.length_append, List.length_cons, List.length_nil]
          simp only [List.length_cons] at hlen1
          omega)
        (by
          simp only [List.length_append, List.length_cons, List.length_nil]
            at hlen2 ⊢
          omega)
        (by
          intro n hn
          have h1 := hrecs (n + 1) (by simp only [List.length_cons]; omega)
          have hsh : ((j + 1) % cap + n) % cap = (j + (n + 1)) % cap := by
            rw [Nat.mod_add_mod]
            congr 1
            omega
          rw [hsh]
          exact h1)
    refine ⟨mfin, ?_, ?_⟩
    · rw [hstep]
      exact hLL
    · rw [hN]
      simp [List.append_assoc]

/-- The machine after `SaveStorage`'s stamping of the next top slot and
its record-write do-while loop (XTable.h:577-594): the lets of the
source body up to and including `current_record = NULL`. -/
def saveLooped (mc : Machine X) : Machine X :=
  let m1 := PutTopLocation mc
  let r := Top m1.tbl
  let recsL := if r.1 then visitRecs r.2.nodes r.2.cursor else []
  let t2 := if r.1 then { r.2 with cursor := none } else r.2
  SaveLoopWrite { m1 with tbl := t2 } m1.topS recsL

/-- The machine after `SaveStorage`'s write of the live counter into the
byte just below the top data slot (XTable.h:595). -/
def saveWritten (mc : Machine X) : Machine X :=
  wByte (saveLooped mc) ((saveLooped mc).topP - 1) (saveLooped mc).tbl.counter

/-- `SaveStorage` on a machine whose `CheckStorage` succeeds: the body
runs through `saveWritten`, and the verdict re-checks the storage and
compares the count byte against `Counter()`. -/
theorem SaveStorage_check_true (m mc m4 : Machine X) (cb : Bool)
    (hC : CheckStorage m = (true, mc))
    (hC2 : CheckStorage (saveWritten mc) = (cb, m4)) :
    SaveStorage m =
      (cb && decide (m4.bytes (m4.topP - 1) = Counter m4.tbl), m4) := by
  rw [SaveStorage, hC]
  show (match CheckStorage (saveWritten mc) with
        | (cb, m4) =>
          (cb && decide (m4.bytes (m4.topP - 1) = Counter m4.tbl), m4)) = _
  rw [hC2]

/-- `LoadStorage` on a machine whose `CheckStorage` succeeds: clean the
table, read the count byte below the top data slot, and run the load
loop from the top status slot. -/
theorem LoadStorage_check_true (m mc : Machine X)
    (hC : CheckStorage m = (true, mc)) :
    LoadStorage m =
      LoadLoop { mc with tbl := Clean mc.tbl } mc.topS
        (mc.bytes (mc.topP - 1)) := by
  rw [LoadStorage, hC]

/-- The write-loop stage of `SaveStorage` with the `Top()` call and the
cursor traversal resolved: the cursor is parked on NULL and the records
streamed out are exactly the enabled ones, in chain order. -/
theorem saveLooped_eq (mc : Machine X) (hne : mc.tbl.nodes ≠ []) :
    saveLooped mc =
      SaveLoopWrite { PutTopLocation mc with
          tbl := (⟨mc.tbl.nodes, none, mc.tbl.counter⟩ : Table X) }
        (PutTopLocation mc).topS
        (mc.tbl.nodes.filter (fun p => p.2)) := by
  have h1 : (if (Top mc.tbl).1 then { (Top mc.tbl).2 with cursor := none }
      else (Top mc.tbl).2) =
      (⟨mc.tbl.nodes, none, mc.tbl.counter⟩ : Table X) :=
    Top_then_none mc.tbl hne
  have h2 : (if (Top mc.tbl).1
      then visitRecs (Top mc.tbl).2.nodes (Top mc.tbl).2.cursor else []) =
      mc.tbl.nodes.filter (fun p => p.2) :=
    enumRecs_eq_filter mc.tbl
  show SaveLoopWrite { PutTopLocation mc with
      tbl := if (Top mc.tbl).1 then { (Top mc.tbl).2 with cursor := none }
             else (Top mc.tbl).2 }
    (PutTopLocation mc).topS
    (if (Top mc.tbl).1
     then visitRecs (Top mc.tbl).2.nodes (Top mc.tbl).2.cursor else []) = _
  rw [h1, h2]

/-- What `saveWritten` does to a machine parked on the first status slot
of a freshly formatted region: slot `1 % capacity` carries generation
byte 1, the member counter sits in the byte below the new top data
slot, the data slots hold the enabled records in visit order, and the
geometry and table are otherwise untouched. -/
theorem saveWritten_fresh (mc : Machine X) (start : Int) (cap s : Nat)
    (hcap1 : 1 ≤ cap) (hcap2 : cap ≤ 255) (hs : 1 ≤ s)
    (hhb : mc.hb = start) (hmi : mc.maxI = (cap : Int))
    (hpb : mc.pb = start + (cap : Int) + 4) (hrs : mc.recSize = s)
    (htopS : mc.topS = start + 2)
    (hv0 : mc.bytes (start + 2) = 0)
    (hlen : mc.tbl.nodes.length = cap + 1)
    (hK : mc.tbl.counter ≤ 255)
    (hble : (mc.tbl.nodes.filter (fun p => p.2)).length ≤ cap) :
    (saveWritten mc).hb = start ∧
    (saveWritten mc).maxI = (cap : Int) ∧
    (saveWritten mc).pb = start + (cap : Int) + 4 ∧
    (saveWritten mc).recSize = s ∧
    (saveWritten mc).tbl = (⟨mc.tbl.nodes, none, mc.tbl.counter⟩ : Table X) ∧
    (∀ q : Int, (saveWritten mc).bytes q =
      if q = start + (cap : Int) + 4 + ((1 % cap : Nat) : Int) * (s : Int) - 1
      then mc.tbl.counter
      else if q = start + 2 + ((1 % cap : Nat) : Int) then 1
      else mc.bytes q) ∧
    (∀ (n : Nat) (hn : n < (mc.tbl.nodes.filter (fun p => p.2)).length),
      (saveWritten mc).recs (start + (cap : Int) + 4 +
        (((1 % cap + n) % cap : Nat) : Int) * (s : Int)) =
        (mc.tbl.nodes.filter (fun p => p.2)).get ⟨n, hn⟩) := by
  have hcap0 : 0 < cap := by omega
  have ht1lt : 1 % cap < cap := Nat.mod_lt 1 hcap0
  have hne : mc.tbl.nodes ≠ [] := by
    intro hh
    rw [hh] at hlen
    simp at hlen
  have hInc0 : IncCurrentLocation mc (start + 2) =
      start + 2 + ((1 % cap : Nat) : Int) := by
    rw [IncCurrentLocation, hhb, hmi]
    rcases Nat.lt_or_ge 1 cap with hgt | hle
    · rw [if_pos (by omega)]
      rw [show (1 % cap : Nat) = 1 from Nat.mod_eq_of_lt hgt]
      push_cast
      ring
    · have hcape : cap = 1 := by omega
      rw [if_neg (by rw [hcape]; omega),
        show (1 % cap : Nat) = 0 by rw [hcape]]
      push_cast
      ring
  have hm1topS : (PutTopLocation mc).topS =
      start + 2 + ((1 % cap : Nat) : Int) := by
    show IncCurrentLocation mc mc.topS = _
    rw [htopS]
    exact hInc0
  have hm1topP : (PutTopLocation mc).topP =
      start + (cap : Int) + 4 + ((1 % cap : Nat) : Int) * (s : Int) := by
    show (IncCurrentLocation mc mc.topS - mc.hb - 2) * (mc.recSize : Int)
        + mc.pb = _
    rw [htopS, hInc0, hhb, hpb, hrs]
    ring
  have hm1bytes : ∀ q : Int, (PutTopLocation mc).bytes q =
      if q = start + 2 + ((1 % cap : Nat) : Int) then 1 else mc.bytes q := by
    intro q
    show (if q = IncCurrentLocation mc mc.topS
          then (mc.bytes mc.topS + 1) % 256 else mc.bytes q) = _
    rw [htopS, hInc0, hv0]
  have hswL : saveLooped mc =
      SaveLoopWrite { PutTopLocation mc with
          tbl := (⟨mc.tbl.nodes, none, mc.tbl.counter⟩ : Table X) }
        (start + 2 + ((1 % cap : Nat) : Int))
        (mc.tbl.nodes.filter (fun p => p.2)) := by
    rw [saveLooped_eq mc hne, hm1topS]
  have hfields := SaveLoopWrite_fields (mc.tbl.nodes.filter (fun p => p.2))
      ({ PutTopLocation mc with
          tbl := (⟨mc.tbl.nodes, none, mc.tbl.counter⟩ : Table X) } : Machine X)
      (start + 2 + ((1 % cap : Nat) : Int))
  rw [← hswL] at hfields
  have hLtbl : (saveLooped mc).tbl =
      (⟨mc.tbl.nodes, none, mc.tbl.counter⟩ : Table X) := by
    rw [hswL, tbl_SaveLoopWrite]
  have hLcnt : (saveLooped mc).tbl.counter = mc.tbl.counter := by
    rw [hLtbl]
  have hLtopP : (saveLooped mc).topP =
      start + (cap : Int) + 4 + ((1 % cap : Nat) : Int) * (s : Int) := by
    rw [hfields.2.2.2.2.2.2]
    exact hm1topP
  have hLbytes : (saveLooped mc).bytes = (PutTopLocation mc).bytes :=
    hfields.2.2.2.2.1
  have hrecs0 := (SaveLoopWrite_recs start (start + (cap : Int) + 4) cap s
      hcap0 hs (mc.tbl.nodes.filter (fun p => p.2))
      ({ PutTopLocation mc with
          tbl := (⟨mc.tbl.nodes, none, mc.tbl.counter⟩ : Table X) } : Machine X)
      (1 % cap) hhb hmi hpb hrs ht1lt hble).1
  rw [← hswL] at hrecs0
  refine ⟨?_, ?_, ?_, ?_, ?_, ?_, ?_⟩
  · show (saveLooped mc).hb = start
    rw [hfields.1]
    exact hhb
  · show (saveLooped mc).maxI = (cap : Int)
    rw [hfields.2.1]
    exact hmi
  · show (saveLooped mc).pb = start + (cap : Int) + 4
    rw [hfields.2.2.1]
    exact hpb
  · show (saveLooped mc).recSize = s
    rw [hfields.2.2.2.1]
    exact hrs
  · show (saveLooped mc).tbl = (⟨mc.tbl.nodes, none, mc.tbl.counter⟩ : Table X)
    exact hLtbl
  · intro q
    show (if q = (saveLooped mc).topP - 1
          then (saveLooped mc).tbl.counter % 256
          else (saveLooped mc).bytes q) = _
    rw [hLtopP, hLcnt, Nat.mod_eq_of_lt (by omega : mc.tbl.counter < 256),
      hLbytes]
    by_cases h1 : q = start + (cap : Int) + 4 +
        ((1 % cap : Nat) : Int) * (s : Int) - 1
    · rw [if_pos h1, if_pos h1]
    · rw [if_neg h1, if_neg h1]
      exact hm1bytes q
  · intro n hn
    show (saveLooped mc).recs (start + (cap : Int) + 4 +
        (((1 % cap + n) % cap : Nat) : Int) * (s : Int)) = _
    exact hrecs0 n hn

/-- `SaveStorage` on a freshly formatted region attached to a table
whose counter counts its enabled records: the call succeeds, the
geometry and chain length are preserved, the status region carries
generation 1 in slot `1 % capacity`, the count byte holds the counter,
and the data slots hold the enabled records in visit order. -/
theorem SaveStorage_fresh (m : Machine X) (start : Int) (cap s : Nat)
    (hcap1 : 1 ≤ cap) (hcap2 : cap ≤ 255) (hs : 1 ≤ s) (hstart : 0 ≤ start)
    (hhb : m.hb = start) (hmi : m.maxI = (cap : Int))
    (hpb : m.pb = start + (cap : Int) + 4) (hrs : m.recSize = s)
    (hB : m.bytes start = BMK)
    (hSz : (m.bytes (start + 1) : Int) = (cap : Int))
    (hE : m.bytes (start + (cap : Int) + 2) = EMK)
    (hZ : ∀ i : Int, 0 ≤ i → i < (cap : Int) → m.bytes (start + 2 + i) = 0)
    (hlen : m.tbl.nodes.length = cap + 1)
    (hcnt : m.tbl.counter = (m.tbl.nodes.filter (fun p => p.2)).length)
    (hble : (m.tbl.nodes.filter (fun p => p.2)).length ≤ cap) :
    (SaveStorage m).1 = true ∧
    (SaveStorage m).2.hb = start ∧
    (SaveStorage m).2.maxI = (cap : Int) ∧
    (SaveStorage m).2.pb = start + (cap : Int) + 4 ∧
    (SaveStorage m).2.recSize = s ∧
    (SaveStorage m).2.tbl.nodes.length = cap + 1 ∧
    (∀ q : Int, (SaveStorage m).2.bytes q =
      if q = start + (cap : Int) + 4 + ((1 % cap : Nat) : Int) * (s : Int) - 1
      then m.tbl.counter
      else if q = start + 2 + ((1 % cap : Nat) : Int) then 1
      else m.bytes q) ∧
    (∀ (n : Nat) (hn : n < (m.tbl.nodes.filter (fun p => p.2)).length),
      (SaveStorage m).2.recs (start + (cap : Int) + 4 +
        (((1 % cap + n) % cap : Nat) : Int) * (s : Int)) =
        (m.tbl.nodes.filter (fun p => p.2)).get ⟨n, hn⟩) := by
  have hcap0 : 0 < cap := by omega
  have ht1lt : 1 % cap < cap := Nat.mod_lt 1 hcap0
  have hsi : (1 : Int) ≤ (s : Int) := by exact_mod_cast hs
  have hci : (1 : Int) ≤ (cap : Int) := by exact_mod_cast hcap1
  have ht1ic : ((1 % cap : Nat) : Int) < (cap : Int) := by exact_mod_cast ht1lt
  have hX0 : (0 : Int) ≤ ((1 % cap : Nat) : Int) * (s : Int) := by positivity
  have hC1 : CheckStorage m = (true, GetTopLocation m) :=
    CheckStorage_eq_true (by rw [hmi]; omega) (by rw [hmi]; omega)
      (by rw [hhb]; omega)
      ⟨by rw [hhb]; exact hB, by rw [hhb, hmi]; exact hE,
       by rw [hhb, hmi]; exact hSz⟩
  have hmcS : (GetTopLocation m).topS = start + 2 := by
    show topWalk m 256 (m.hb + 2) (m.hb + 3) = start + 2
    rw [hhb]
    exact walk_fresh m start cap hcap1 hcap2 hZ hE
  have hv0 : m.bytes (start + 2) = 0 := by
    have h0 := hZ 0 le_rfl (by omega)
    rw [show start + 2 + (0 : Int) = start + 2 by ring] at h0
    exact h0
  obtain ⟨hWhb, hWmi, hWpb, hWrs, hWtbl, hWbytes, hWrecs⟩ :=
    saveWritten_fresh (GetTopLocation m) start cap s hcap1 hcap2 hs
      hhb hmi hpb hrs hmcS hv0 hlen
      (by show m.tbl.counter ≤ 255; omega) hble
  have hB3 : (saveWritten (GetTopLocation m)).bytes start = BMK := by
    rw [hWbytes, if_neg (by intro hq; linarith), if_neg (by omega)]
    exact hB
  have hSz3 : ((saveWritten (GetTopLocation m)).bytes (start + 1) : Int) =
      (cap : Int) := by
    rw [hWbytes, if_neg (by intro hq; linarith), if_neg (by omega)]
    exact hSz
  have hE3 : (saveWritten (GetTopLocation m)).bytes
      (start + (cap : Int) + 2) = EMK := by
    rw [hWbytes, if_neg (by intro hq; linarith), if_neg (by omega)]
    exact hE
  have hone3 : (saveWritten (GetTopLocation m)).bytes
      (start + 2 + ((1 % cap : Nat) : Int)) = 1 := by
    rw [hWbytes, if_neg (by intro hq; linarith), if_pos rfl]
  have hZ3 : ∀ i : Int, 0 ≤ i → i < (cap : Int) →
      i ≠ ((1 % cap : Nat) : Int) →
      (saveWritten (GetTopLocation m)).bytes (start + 2 + i) = 0 := by
    intro i h0 hlt hnei
    rw [hWbytes, if_neg (by intro hq; linarith), if_neg (by omega)]
    exact hZ i h0 hlt
  have hC3 : CheckStorage (saveWritten (GetTopLocation m)) =
      (true, GetTopLocation (saveWritten (GetTopLocation m))) :=
    CheckStorage_eq_true (by rw [hWmi]; omega) (by rw [hWmi]; omega)
      (by rw [hWhb]; omega)
      ⟨by rw [hWhb]; exact hB3, by rw [hWhb, hWmi]; exact hE3,
       by rw [hWhb, hWmi]; exact hSz3⟩
  have hwalk3 : topWalk (saveWritten (GetTopLocation m)) 256
      ((saveWritten (GetTopLocation m)).hb + 2)
      ((saveWritten (GetTopLocation m)).hb + 3) =
      start + 2 + ((1 % cap : Nat) : Int) := by
    rw [hWhb]
    exact walk_stamped (saveWritten (GetTopLocation m)) start cap (1 % cap)
      hcap1 hcap2 rfl hWhb hWmi hone3 hZ3 hE3
  have hm4topP : (GetTopLocation (saveWritten (GetTopLocation m))).topP =
      start + (cap : Int) + 4 + ((1 % cap : Nat) : Int) * (s : Int) := by
    show GetLocationFromStatus (saveWritten (GetTopLocation m))
        (topWalk (saveWritten (GetTopLocation m)) 256
          ((saveWritten (GetTopLocation m)).hb + 2)
          ((saveWritten (GetTopLocation m)).hb + 3)) = _
    rw [hwalk3, GetLocationFromStatus, hWhb, hWpb, hWrs]
    ring
  have hcount : (GetTopLocation (saveWritten (GetTopLocation m))).bytes
      ((GetTopLocation (saveWritten (GetTopLocation m))).topP - 1) =
      Counter (GetTopLocation (saveWritten (GetTopLocation m))).tbl := by
    rw [hm4topP]
    show (saveWritten (GetTopLocation m)).bytes
        (start + (cap : Int) + 4 + ((1 % cap : Nat) : Int) * (s : Int) - 1) =
      Counter (saveWritten (GetTopLocation m)).tbl
    rw [hWbytes, if_pos rfl, hWtbl]
    rfl
  have hSave : SaveStorage m =
      (true, GetTopLocation (saveWritten (GetTopLocation m))) := by
    have h0 := SaveStorage_check_true m (GetTopLocation m)
      (GetTopLocation (saveWritten (GetTopLocation m))) true hC1 hC3
    rw [decide_eq_true hcount, Bool.true_and] at h0
    exact h0
  refine ⟨?_, ?_, ?_, ?_, ?_, ?_, ?_, ?_⟩
  · rw [hSave]
  · rw [hSave]
    exact hWhb
  · rw [hSave]
    exact hWmi
  · rw [hSave]
    exact hWpb
  · rw [hSave]
    exact hWrs
  · rw [hSave]
    show (saveWritten (GetTopLocation m)).tbl.nodes.length = cap + 1
    rw [hWtbl]
    exact hlen
  · intro q
    rw [hSave]
    exact hWbytes q
  · intro n hn
    rw [hSave]
    exact hWrecs n hn

/-- `LoadStorage` after a `Clean()` of the attached table, on storage
carrying a freshly stamped generation in slot `1 % capacity`, the live
count `S.length` in the byte below the top data slot, and the records
of `S` (all enabled) in the data slots in visit order: the call
succeeds and the reloaded enabled records are exactly `S`. -/
theorem LoadStorage_reload (M : Machine X) (start : Int) (cap s : Nat)
    (S : List (X × Bool))
    (hcap1 : 1 ≤ cap) (hcap2 : cap ≤ 255) (hs : 1 ≤ s) (hstart : 0 ≤ start)
    (hhb : M.hb = start) (hmi : M.maxI = (cap : Int))
    (hpb : M.pb = start + (cap : Int) + 4) (hrs : M.recSize = s)
    (hB : M.bytes start = BMK)
    (hSz : (M.bytes (start + 1) : Int) = (cap : Int))
    (hE : M.bytes (start + (cap : Int) + 2) = EMK)
    (hone : M.bytes (start + 2 + ((1 % cap : Nat) : Int)) = 1)
    (hZ : ∀ i : Int, 0 ≤ i → i < (cap : Int) → i ≠ ((1 % cap : Nat) : Int) →
      M.bytes (start + 2 + i) = 0)
    (hcount : M.bytes (start + (cap : Int) + 4 +
      ((1 % cap : Nat) : Int) * (s : Int) - 1) = S.length)
    (hrecs : ∀ (n : Nat) (hn : n < S.length),
      M.recs (start + (cap : Int) + 4 +
        (((1 % cap + n) % cap : Nat) : Int) * (s : Int)) = S.get ⟨n, hn⟩)
    (hSall : ∀ p ∈ S, p.2 = true)
    (hSle : S.length ≤ cap)
    (hlen : M.tbl.nodes.length = cap + 1) :
    (LoadStorage { M with tbl := Clean M.tbl }).map
      (fun rr => (rr.1, rr.2.tbl.nodes.filter (fun p => p.2))) =
      some (true, S) := by
  have hcap0 : 0 < cap := by omega
  have ht1lt : 1 % cap < cap := Nat.mod_lt 1 hcap0
  have hCmc : CheckStorage { M with tbl := Clean M.tbl } =
      (true, GetTopLocation { M with tbl := Clean M.tbl }) :=
    CheckStorage_eq_true (by show (0 : Int) < M.maxI; rw [hmi]; omega)
      (by show M.maxI ≤ 255; rw [hmi]; omega)
      (by show (0 : Int) ≤ M.hb; rw [hhb]; omega)
      ⟨by show M.bytes M.hb = BMK; rw [hhb]; exact hB,
       by show M.bytes (M.hb + M.maxI + 2) = EMK; rw [hhb, hmi]; exact hE,
       by show (M.bytes (M.hb + 1) : Int) = M.maxI; rw [hhb, hmi]; exact hSz⟩
  have hLoadEq := LoadStorage_check_true { M with tbl := Clean M.tbl }
      (GetTopLocation { M with tbl := Clean M.tbl }) hCmc
  have ha2 : M.hb + 2 = start + 2 := by rw [hhb]
  have ha3 : M.hb + 3 = start + 3 := by rw [hhb]
  have hwalkC : topWalk { M with tbl := Clean M.tbl } 256 (start + 2)
      (start + 3) = start + 2 + ((1 % cap : Nat) : Int) :=
    walk_stamped { M with tbl := Clean M.tbl } start cap (1 % cap)
      hcap1 hcap2 rfl hhb hmi hone hZ hE
  have hmCtopS : (GetTopLocation { M with tbl := Clean M.tbl }).topS =
      start + 2 + ((1 % cap : Nat) : Int) := by
    show topWalk { M with tbl := Clean M.tbl } 256 (M.hb + 2) (M.hb + 3) = _
    rw [ha2, ha3]
    exact hwalkC
  have hmCtopP : (GetTopLocation { M with tbl := Clean M.tbl }).topP =
      start + (cap : Int) + 4 + ((1 % cap : Nat) : Int) * (s : Int) := by
    show GetLocationFromStatus { M with tbl := Clean M.tbl }
        (topWalk { M with tbl := Clean M.tbl } 256 (M.hb + 2) (M.hb + 3)) = _
    rw [ha2, ha3, hwalkC, GetLocationFromStatus]
    show (start + 2 + ((1 % cap : Nat) : Int) - M.hb - 2) *
        (M.recSize : Int) + M.pb = _
    rw [hhb, hpb, hrs]
    ring
  have hcount2 : (GetTopLocation { M with tbl := Clean M.tbl }).bytes
      ((GetTopLocation { M with tbl := Clean M.tbl }).topP - 1) =
      S.length := by
    rw [hmCtopP]
    exact hcount
  rw [hLoadEq]
  nth_rewrite 2 [hmCtopS]
  rw [hcount2]
  obtain ⟨mfin, hLL, hmfinN⟩ :=
    LoadLoop_builds start (start + (cap : Int) + 4) cap s hcap0 hs S []
      (M.tbl.nodes.map (fun p => (p.1, false)))
      ({ GetTopLocation { M with tbl := Clean M.tbl } with
          tbl := Clean (GetTopLocation { M with tbl := Clean M.tbl }).tbl })
      (1 % cap)
      hhb hmi hpb hrs ht1lt
      (by
        show ((M.tbl.nodes.map (fun p => (p.1, false))).map
            (fun p => (p.1, false))) =
          [] ++ M.tbl.nodes.map (fun p => (p.1, false))
        rw [List.map_map, List.nil_append]
        rfl)
      hSall
      (by intro p hp; simp at hp)
      (by
        intro p hp
        obtain ⟨qq, -, rfl⟩ := List.mem_map.mp hp
        rfl)
      (by simp only [List.length_nil, Nat.zero_add]; exact hSle)
      (by
        simp only [List.length_nil, List.length_map, Nat.zero_add]
        omega)
      (fun n hn => hrecs n hn)
  rw [hLL]
  show some (true, mfin.tbl.nodes.filter (fun p => p.2)) = some (true, S)
  rw [hmfinN, List.nil_append, List.filter_append,
    List.filter_eq_self.mpr hSall,
    List.filter_eq_nil.mpr (by
      intro p hp
      have hdm := List.mem_of_mem_drop hp
      obtain ⟨qq, -, rfl⟩ := List.mem_map.mp hdm
      simp),
    List.append_nil]

/-- C1 (amended): on a freshly formatted storage region (markers and
size byte in place, every status byte still zero) attached to a table
built by `InitBuffer(capacity)` and driven by any sequence of Insert,
Delete and Update operations in which each Delete is issued with the
cursor on an enabled node, `SaveStorage()` succeeds, and
`Clean()` followed by `LoadStorage()` succeeds and reconstructs a
working-set table whose enabled records equal the live set S of the
saved table — same payloads, same enabled flags, in chain order. -/
theorem C1_roundtrip (start : Int) (cap s : Nat) (g : Nat → X × Bool)
    (ops : List (Op X)) (m : Machine X)
    (hcap1 : 1 ≤ cap) (hcap2 : cap ≤ 255) (hs : 1 ≤ s) (hstart : 0 ≤ start)
    (hhb : m.hb = start) (hmi : m.maxI = (cap : Int))
    (hpb : m.pb = start + (cap : Int) + 4) (hrs : m.recSize = s)
    (hB : m.bytes start = BMK)
    (hSz : (m.bytes (start + 1) : Int) = (cap : Int))
    (hE : m.bytes (start + (cap : Int) + 2) = EMK)
    (hZ : ∀ i : Int, 0 ≤ i → i < (cap : Int) → m.bytes (start + 2 + i) = 0)
    (hg : ∀ n, (g n).2 = false)
    (htbl : m.tbl = runOps (InitBuffer cap g) ops)
    (hok : okRunB (InitBuffer cap g) ops = true) :
    (SaveStorage m).1 = true ∧
    (LoadStorage { (SaveStorage m).2 with
        tbl := Clean (SaveStorage m).2.tbl }).map
      (fun rr => (rr.1, rr.2.tbl.nodes.filter (fun p => p.2))) =
      some (true, m.tbl.nodes.filter (fun p => p.2)) := by
  have hcap0 : 0 < cap := by omega
  have hT2 : goodTable cap (runOps (InitBuffer cap g) ops) :=
    goodTable_runOps hcap2 ops (InitBuffer cap g)
      (goodTable_InitBuffer hcap1 g hg) hok
  obtain ⟨hTlen, hTsent, hTcnt⟩ := hT2
  have hble : ((runOps (InitBuffer cap g) ops).nodes.filter
      (fun p => p.2)).length ≤ cap := by
    rw [← liveCount_eq_length_filter]
    exact goodTable_liveCount_le ⟨hTlen, hTsent, hTcnt⟩
  rw [← htbl] at hTlen hTcnt hble
  have hcnt : m.tbl.counter = (m.tbl.nodes.filter (fun p => p.2)).length := by
    rw [hTcnt, liveCount_eq_length_filter]
  obtain ⟨h1, h2, h3, h4, h5, h6, h7, h8⟩ :=
    SaveStorage_fresh m start cap s hcap1 hcap2 hs hstart hhb hmi hpb hrs
      hB hSz hE hZ hTlen hcnt hble
  refine ⟨h1, ?_⟩
  have ht1lt : 1 % cap < cap := Nat.mod_lt 1 hcap0
  have hsi : (1 : Int) ≤ (s : Int) := by exact_mod_cast hs
  have hci : (1 : Int) ≤ (cap : Int) := by exact_mod_cast hcap1
  have ht1ic : ((1 % cap : Nat) : Int) < (cap : Int) := by exact_mod_cast ht1lt
  have hX0 : (0 : Int) ≤ ((1 % cap : Nat) : Int) * (s : Int) := by positivity
  have hB2 : (SaveStorage m).2.bytes start = BMK := by
    rw [h7, if_neg (by intro hq; linarith), if_neg (by omega)]
    exact hB
  have hSz2 : ((SaveStorage m).2.bytes (start + 1) : Int) = (cap : Int) := by
    rw [h7, if_neg (by intro hq; linarith), if_neg (by omega)]
    exact hSz
  have hE2 : (SaveStorage m).2.bytes (start + (cap : Int) + 2) = EMK := by
    rw [h7, if_neg (by intro hq; linarith), if_neg (by omega)]
    exact hE
  have hone2 : (SaveStorage m).2.bytes
      (start + 2 + ((1 % cap : Nat) : Int)) = 1 := by
    rw [h7, if_neg (by intro hq; linarith), if_pos rfl]
  have hZ2 : ∀ i : Int, 0 ≤ i → i < (cap : Int) →
      i ≠ ((1 % cap : Nat) : Int) →
      (SaveStorage m).2.bytes (start + 2 + i) = 0 := by
    intro i h0 hlt hnei
    rw [h7, if_neg (by intro hq; linarith), if_neg (by omega)]
    exact hZ i h0 hlt
  have hcount2 : (SaveStorage m).2.bytes (start + (cap : Int) + 4 +
      ((1 % cap : Nat) : Int) * (s : Int) - 1) =
      (m.tbl.nodes.filter (fun p => p.2)).length := by
    rw [h7, if_pos rfl]
    exact hcnt
  have hSall : ∀ p ∈ m.tbl.nodes.filter (fun p => p.2), p.2 = true := by
    intro p hp
    exact (List.mem_filter.mp hp).2
  exact LoadStorage_reload (SaveStorage m).2 start cap s
    (m.tbl.nodes.filter (fun p => p.2)) hcap1 hcap2 hs hstart
    h2 h3 h4 h5 hB2 hSz2 hE2 hone2 hZ2 hcount2 h8 hSall hble h6

/-- A freshly formatted two-slot store holding the table reached by
Insert 10; Insert 20; Delete — one enabled item, every Delete issued on
an enabled cursor. -/
def rtMachine : Machine Nat :=
  { tbl := runOps (InitBuffer 2 (fun _ => ((0 : Nat), false)))
      [Op.ins 10, Op.ins 20, Op.del]
  , recSize := 2
  , hb := 0
  , pb := 6
  , maxI := 2
  , topS := 0
  , topP := 0
  , bytes := fun a =>
      if a = 0 then BMK
      else if a = 1 then 2
      else if a = 4 then EMK
      else 0
  , recs := fun _ => (0, false) }

theorem C1_roundtrip_witness :
    okRunB (InitBuffer 2 (fun _ => ((0 : Nat), false)))
        [Op.ins 10, Op.ins 20, Op.del] = true ∧
    ((SaveStorage rtMachine).1 = true ∧
     (LoadStorage { (SaveStorage rtMachine).2 with
         tbl := Clean (SaveStorage rtMachine).2.tbl }).map
       (fun rr => (rr.1, rr.2.tbl.nodes.filter (fun p => p.2))) =
       some (true, rtMachine.tbl.nodes.filter (fun p => p.2))) :=
  ⟨by decide, C1_roundtrip 0 2 2 (fun _ => ((0 : Nat), false))
      [Op.ins 10, Op.ins 20, Op.del] rtMachine (by decide) (by decide)
      (by decide) (by decide) rfl (by decide) (by decide) rfl (by decide)
      (by decide) (by decide)
      (by
        intro i h0 h2
        have hi : i = 0 ∨ i = 1 := by omega
        rcases hi with rfl | rfl <;> decide)
      (fun n => rfl) rfl (by decide)⟩

/-- C4, counterexample to the claim as stated: a successful
`InitBuffer(1)` does not allocate exactly 1 chained node — the chain
holds 2 nodes (`first_record` plus the one node the do-while loop
allocates; the last node, whose `next` is NULL, is a sentinel `Insert`
never fills). -/
theorem C4_counterexample :
    (InitBuffer 1 (fun _ => ((0 : Nat), false))).nodes.length = 2 ∧
    (2 : Nat) ≠ 1 := ⟨rfl, by decide⟩

/-- C4 (amended): a successful `InitBuffer(capacity)` allocates exactly
`capacity + 1` chained nodes (the `capacity` usable slots plus one
trailing sentinel), and no subsequent operation — Insert, Delete,
Update (via `stepT`), Clean, Top, Next, SaveStorage, LoadStorage —
adds or frees a node, so the chain length stays `capacity + 1` for the
table's entire lifetime after `InitBuffer`. -/
theorem C4_chain_length_fixed (cap : Nat) (hcap : 1 ≤ cap) (g : Nat → X × Bool) :
    (InitBuffer cap g).nodes.length = cap + 1 ∧
    (∀ (t : Table X) (op : Op X), (stepT t op).nodes.length = t.nodes.length) ∧
    (∀ t : Table X, (Clean t).nodes.length = t.nodes.length) ∧
    (∀ t : Table X, (Top t).2.nodes = t.nodes) ∧
    (∀ t : Table X, (Next t).2.nodes = t.nodes) ∧
    (∀ m : Machine X, (SaveStorage m).2.tbl.nodes.length = m.tbl.nodes.length) ∧
    (∀ (m : Machine X) (r : Bool × Machine X), LoadStorage m = some r →
      r.2.tbl.nodes.length = m.tbl.nodes.length) := by
  refine ⟨?_, length_stepT, ?_, nodes_Top, nodes_Next, ?_, length_LoadStorage⟩
  · simp only [InitBuffer, List.length_map, List.length_range]
    omega
  · intro t
    simp [Clean]
  · intro m
    rw [nodes_SaveStorage]

theorem C4_chain_length_fixed_witness :
    (1 : Nat) ≤ 1 ∧
    (InitBuffer 1 (fun _ => ((0 : Nat), false))).nodes.length = 1 + 1 :=
  ⟨le_rfl, (C4_chain_length_fixed 1 le_rfl (fun _ => ((0 : Nat), false))).1⟩

/-- C5, counterexample to the claim as stated: on a table whose single
usable slot is enabled, the failing `Insert` does mutate state — it
moves `current_record` from node 0 to the terminal sentinel node. -/
theorem C5_counterexample :
    Insert (⟨[(5, true), (9, false)], some 0, 1⟩ : Table Nat) 7 =
      some (false, (⟨[(5, true), (9, false)], some 1, 1⟩ : Table Nat)) ∧
    (⟨[(5, true), (9, false)], some 0, 1⟩ : Table Nat).cursor ≠ some 1 :=
  ⟨rfl, by decide⟩

/-- C5 (amended): when every usable slot (every node but the terminal
sentinel) is enabled, `Insert` returns failure and performs no mutation
other than leaving the cursor on the terminal node: payloads, enabled
flags and the counter are unchanged. -/
theorem C5_full_table_insert (t : Table X) (x : X) (hne : t.nodes ≠ [])
    (hfull : ∀ j p, j < t.nodes.length - 1 → t.nodes.get? j = some p →
      p.2 = true) :
    Insert t x = some (false, { t with cursor := some (t.nodes.length - 1) }) := by
  obtain ⟨nodes, cur, cnt⟩ := t
  simp only at hne hfull ⊢
  rw [insert_eq _ _ _ _ hne, insScan_all_true hfull, if_pos rfl]

theorem C5_full_table_insert_witness :
    Insert (⟨[(5, true), (9, false)], some 0, 1⟩ : Table Nat) 7 =
      some (false, { (⟨[(5, true), (9, false)], some 0, 1⟩ : Table Nat) with
                     cursor := some (([(5, true), (9, false)] :
                       List (Nat × Bool)).length - 1) }) :=
  C5_full_table_insert _ 7 (by decide) (by
    intro j p hj hg
    simp only [List.length_cons, List.length_nil] at hj
    have hj0 : j = 0 := by omega
    subst hj0
    have hp : some ((5 : Nat), true) = some p := hg
    cases hp
    rfl)

/-- C6, counterexample to the claim as stated: after the successful
sequence Insert 7; Delete; Delete (the second Delete hits the cursor on
an already-disabled node and still succeeds), `Counter()` is 65535,
not the number of Inserts minus the number of Deletes (1 - 2). -/
theorem C6_counterexample :
    succRunB (⟨[(0, false), (0, false), (0, false)], none, 0⟩ : Table Nat)
        [Op.ins 7, Op.del, Op.del] = true ∧
    Counter (runOps (⟨[(0, false), (0, false), (0, false)], none, 0⟩ : Table Nat)
        [Op.ins 7, Op.del, Op.del]) = 65535 ∧
    countIns ([Op.ins 7, Op.del, Op.del] : List (Op Nat)) = 1 ∧
    countDel ([Op.ins 7, Op.del, Op.del] : List (Op Nat)) = 2 ∧
    ((65535 : Int) ≠ 1 - 2) :=
  ⟨by decide, by decide, by decide, by decide, by decide⟩

/-- C6 (amended): for every sequence of successful calls starting from
a zeroed counter (the state after `Clean`), `Counter()` equals the
number of Inserts minus the number of Deletes, provided the Deletes do
not outnumber the Inserts (the counter is a 16-bit unsigned value and
in general tracks the difference only modulo 2 ^ 16). -/
theorem C6_counter_balance (t0 : Table X) (ops : List (Op X))
    (h0 : t0.counter = 0) (hsucc : succRunB t0 ops = true)
    (hDI : countDel ops ≤ countIns ops)
    (hlt : countIns ops - countDel ops < UINT_MOD) :
    Counter (runOps t0 ops) = countIns ops - countDel ops := by
  have hc0 : t0.counter < UINT_MOD := by rw [h0, UINT_MOD]; omega
  have hrun := counter_succRun ops t0 hsucc hc0
  rw [Counter, hrun, h0]
  simp only [UINT_MOD] at hlt ⊢
  omega

theorem C6_counter_balance_witness :
    Counter (runOps (⟨[(0, false), (0, false), (0, false)], none, 0⟩ : Table Nat)
        [Op.ins 7, Op.ins 8, Op.del]) =
      countIns ([Op.ins 7, Op.ins 8, Op.del] : List (Op Nat)) -
        countDel ([Op.ins 7, Op.ins 8, Op.del] : List (Op Nat)) :=
  C6_counter_balance _ _ rfl (by decide) (by decide) (by decide)

/-- C7: `Top()` followed by repeated `Next()` visits exactly the
enabled nodes of the chain in chain order (skipping every disabled
node); on an empty table `Top()` fails immediately, on an all-disabled
table `Top()` fails immediately, and `Next()` fails once no enabled
node remains beyond the cursor. -/
theorem C7_enumeration (t : Table X) :
    enumRecs t = t.nodes.filter (fun p => p.2) ∧
    (t.nodes = [] → (Top t).1 = false) ∧
    ((∀ p ∈ t.nodes, p.2 = false) → (Top t).1 = false) ∧
    (∀ i, t.cursor = some i →
      (∀ j p, i < j → t.nodes.get? j = some p → p.2 = false) →
      (Next t).1 = false) := by
  refine ⟨enumRecs_eq_filter t, ?_, ?_, ?_⟩
  · intro h
    obtain ⟨nodes, cur, cnt⟩ := t
    simp only at h
    subst h
    rfl
  · intro hall
    obtain ⟨nodes, cur, cnt⟩ := t
    simp only at hall
    cases nodes with
    | nil => rfl
    | cons q rest =>
      show (firstEnabledFrom (q :: rest) 0).isSome = false
      rcases hfe : firstEnabledFrom (q :: rest) 0 with _ | j
      · rfl
      · obtain ⟨p, hp, hp2⟩ := firstEnabledFrom_flag hfe
        have hmem := List.get?_mem hp
        rw [hall p hmem] at hp2
        exact absurd hp2 (by simp)
  · intro i hcur hnone
    obtain ⟨nodes, cur, cnt⟩ := t
    simp only at hcur hnone
    subst hcur
    cases nodes with
    | nil => rfl
    | cons q rest =>
      show (firstEnabledFrom (q :: rest) (i + 1)).isSome = false
      rcases hfe : firstEnabledFrom (q :: rest) (i + 1) with _ | j
      · rfl
      · obtain ⟨hle, hlt⟩ := firstEnabledFrom_some hfe
        obtain ⟨p, hp, hp2⟩ := firstEnabledFrom_flag hfe
        rw [hnone j p (by omega) hp] at hp2
        exact absurd hp2 (by simp)

theorem C7_enumeration_witness :
    enumRecs (⟨[(1, false), (2, true), (3, false)], some 1, 1⟩ : Table Nat) =
      ([(1, false), (2, true), (3, false)] :
        List (Nat × Bool)).filter (fun p => p.2) ∧
    (Next (⟨[(1, false), (2, true), (3, false)], some 1, 1⟩ : Table Nat)).1 =
      false := by
  constructor
  · exact (C7_enumeration
      (⟨[(1, false), (2, true), (3, false)], some 1, 1⟩ : Table Nat)).1
  · refine (C7_enumeration
      (⟨[(1, false), (2, true), (3, false)], some 1, 1⟩ : Table Nat)).2.2.2
        1 rfl ?_
    intro j p hj hg
    obtain ⟨hlt, -⟩ := List.get?_eq_some.mp hg
    simp only [List.length_cons, List.length_nil] at hlt
    have hj2 : j = 2 := by omega
    subst hj2
    have hp : some ((3 : Nat), false) = some p := hg
    cases hp
    rfl

/-- C9 (code bug): the code does not report these failures through its
return value — `Select()` with a NULL `current_record` (the state right
after `Clean()`) reads `current_record->enabled` through the NULL
pointer, and `Insert()` before `InitBuffer` stores through the NULL
`current_record`; both faulting dereferences are the outer `none` of
the model. -/
theorem C9_null_dereference :
    Select (Clean (InitBuffer 1 (fun _ => ((0 : Nat), false)))) = none ∧
    Insert (freshXTable : Table Nat) 5 = none := ⟨rfl, rfl⟩

/-- C10: `Delete()` returns success and decrements the 16-bit unsigned
counter whenever the cursor is on a node, even one whose enabled flag
is already false; two consecutive Deletes on the same node decrement
twice for one enabled node, and after deleting more than was inserted
`Counter()` wraps to 65535 = 2 ^ 16 - 1. -/
theorem C10_delete_unchecked :
    (∀ (t : Table Nat) i, t.cursor = some i → i < t.nodes.length →
      (Delete t).1 = true ∧
      (Delete t).2.counter = (t.counter + (UINT_MOD - 1)) % UINT_MOD) ∧
    (Delete (⟨[(7, true), (0, false)], some 0, 1⟩ : Table Nat)).1 = true ∧
    Counter (Delete (Delete
      (⟨[(7, true), (0, false)], some 0, 1⟩ : Table Nat)).2).2 =
      UINT_MOD - 1 := by
  refine ⟨?_, rfl, by decide⟩
  intro t i hc hlen
  obtain ⟨nodes, cur, cnt⟩ := t
  simp only at hc
  subst hc
  exact ⟨rfl, rfl⟩

theorem C10_delete_unchecked_witness :
    (Delete (⟨[(9, false)], some 0, 42⟩ : Table Nat)).1 = true ∧
    (Delete (⟨[(9, false)], some 0, 42⟩ : Table Nat)).2.counter =
      (42 + (UINT_MOD - 1)) % UINT_MOD :=
  C10_delete_unchecked.1 ⟨[(9, false)], some 0, 42⟩ 0 rfl (by decide)

end XTable
